import Mathlib

/-!
Verification of a skip-list implementation (an ordered set of `i32` values
supporting `insert` and `search`).

The source manipulates raw pointers (`*mut Node`).  We model the allocation
arena as a list of nodes (`Heap`), a pointer being an index into that list;
`Box::into_raw(Box::new(node))` is modelled by appending `node` to the arena.
Every operation that can panic in the source (an `Option::unwrap` of `None`,
an array index out of bounds) or that dereferences a pointer is modelled in
the `Option` monad, `none` meaning the panic/invalid branch was taken; the
loops of the source are modelled with enough fuel, running out of fuel also
producing `none`.  On the reachable states of the structure we prove that no
`none` ever arises, so the fuelled model agrees with the source's unfuelled
loops there.

Randomness (`rng.random::<f64>() < P`) is modelled by a boolean stream
`s : Nat → Bool`, entry `k` being the outcome of the comparison on the
`k`-th draw of a `random_level` call.
-/

namespace SkipListProof

/-- `const MAX_LEVEL: usize = 16`. -/
def MAX_LEVEL : Nat := 16

/-- `struct Node { value: i32, next: [Option<*mut Node>; MAX_LEVEL] }`,
with pointers replaced by arena indices. -/
structure Node where
  value : Int
  next : List (Option Nat)
  deriving DecidableEq, Inhabited

/-- `Node::new(value, _level)`: the `_level` argument is ignored by the
source, which always fills all `MAX_LEVEL` slots with `None`. -/
def Node.new (value : Int) (_level : Nat) : Node :=
  { value := value, next := List.replicate MAX_LEVEL none }

/-- The allocation arena: the node with address `p` lives at index `p`. -/
abbrev Heap := List Node

/-- `pub struct SkipList { head: Option<*mut Node>, level: usize }` together
with the arena holding its nodes. -/
structure SkipList where
  heap : Heap
  head : Option Nat
  level : Nat
  deriving DecidableEq, Inhabited

/-- `SkipList::new()`: a sentinel head node with dummy value `-1` is
allocated (at arena index 0) and the level starts at 0. -/
def SkipList.new : SkipList :=
  { heap := [Node.new (-1) MAX_LEVEL], head := some 0, level := 0 }

/-- Total read of the node at index `p` (meaningful only at valid indices;
proofs always carry validity). -/
def nodeAt (heap : Heap) (p : Nat) : Node := heap.getD p default

/-- The payload of the node at index `p`. -/
def valAt (heap : Heap) (p : Nat) : Int := (nodeAt heap p).value

/-- The forward slot of the node at index `p` at level `i`. -/
def slotAt (heap : Heap) (i p : Nat) : Option Nat := (nodeAt heap p).next.getD i none

/-- The loop of `random_level`: `while rng.random::<f64>() < P && lvl < MAX_LEVEL - 1
{ lvl += 1 }`.  The fuel `MAX_LEVEL` never runs out: the loop body executes at
most `MAX_LEVEL - 1` times because of the `lvl < MAX_LEVEL - 1` guard. -/
def randomLevelGo (s : Nat → Bool) : Nat → Nat → Nat
  | 0, lvl => lvl
  | fuel + 1, lvl =>
    if s lvl = true ∧ lvl < MAX_LEVEL - 1 then randomLevelGo s fuel (lvl + 1) else lvl

/-- `SkipList::random_level()`, the randomness abstracted into the stream `s`
(`s k` is the outcome of `rng.random::<f64>() < P` on the `k`-th draw; the
`k`-th draw happens while `lvl = k`). -/
def random_level (s : Nat → Bool) : Nat := randomLevelGo s MAX_LEVEL 0

/-- One level of the rightward traversal shared by `search` and `insert`:
`while let Some(node_ptr) = current { if node.next[i].is_some() &&
(*node.next[i].unwrap()).value < value { current = node.next[i] } else { break } }`.
`none` models a panic / invalid dereference / fuel exhaustion. -/
def findPred (heap : Heap) (i : Nat) (v : Int) : Nat → Option Nat → Option (Option Nat)
  | 0, _ => none
  | _ + 1, none => some none
  | fuel + 1, some p =>
    match heap[p]? with
    | none => none
    | some node =>
      match node.next[i]? with
      | none => none
      | some none => some (some p)
      | some (some q) =>
        match heap[q]? with
        | none => none
        | some qn =>
          if qn.value < v then findPred heap i v fuel (some q) else some (some p)

/-- The descending level list `self.level, self.level - 1, ..., 0` of
`for i in (0..=self.level).rev()`. -/
def levelsDown (level : Nat) : List Nat := (List.range (level + 1)).reverse

/-- The descending traversal of `search` (the outer `for` loop). -/
def descend (heap : Heap) (v : Int) : List Nat → Option Nat → Option (Option Nat)
  | [], cur => some cur
  | i :: rest, cur =>
    match findPred heap i v (heap.length + 1) cur with
    | none => none
    | some cur' => descend heap v rest cur'

/-- The final block of `search`: inspect the level-0 successor of the node
the descending traversal stopped at; `true` iff it exists and carries `v`. -/
def checkAfter (heap : Heap) (v : Int) : Option Nat → Option Bool
  | none => some false
  | some p =>
    match heap[p]? with
    | none => none
    | some node =>
      match node.next[0]? with
      | none => none
      | some none => some false
      | some (some q) =>
        match heap[q]? with
        | none => none
        | some qn => some (decide (qn.value = v))

/-- `SkipList::search(value)`. -/
def SkipList.search (sl : SkipList) (v : Int) : Option Bool :=
  match descend sl.heap v (levelsDown sl.level) sl.head with
  | none => none
  | some cur => checkAfter sl.heap v cur

/-- The descending traversal of `insert` (step 1), recording the predecessor
at each level into the `update` array: `update[i] = current`. -/
def insertLoop (heap : Heap) (v : Int) :
    List Nat → Option Nat → List (Option Nat) → Option (List (Option Nat) × Option Nat)
  | [], cur, upd => some (upd, cur)
  | i :: rest, cur, upd =>
    match findPred heap i v (heap.length + 1) cur with
    | none => none
    | some cur' =>
      if i < upd.length then insertLoop heap v rest cur' (upd.set i cur')
      else none

/-- Step 3 of `insert`: `for i in (self.level + 1)..=new_level { update[i] = self.head }`. -/
def fillUpdate (hd : Option Nat) : List Nat → List (Option Nat) → Option (List (Option Nat))
  | [], upd => some upd
  | i :: rest, upd =>
    if i < upd.length then fillUpdate hd rest (upd.set i hd) else none

/-- Step 4 of `insert`: `for i in 0..=new_level`, splice the freshly
allocated node (at index `newPtr`) in at level `i`:
read the predecessor's old successor, write it into the new node's slot `i`,
then point the predecessor's slot `i` at the new node. -/
def linkLoop (newPtr : Nat) (upd : List (Option Nat)) :
    List Nat → Heap → Option Heap
  | [], heap => some heap
  | i :: rest, heap =>
    match upd[i]? with
    | none => none
    | some none => none
    | some (some p) =>
      match heap[p]? with
      | none => none
      | some pred =>
        match pred.next[i]? with
        | none => none
        | some oldSucc =>
          match heap[newPtr]? with
          | none => none
          | some newNode =>
            if i < newNode.next.length then
              let heap1 := heap.set newPtr { newNode with next := newNode.next.set i oldSucc }
              match heap1[p]? with
              | none => none
              | some pred1 =>
                if i < pred1.next.length then
                  linkLoop newPtr upd rest
                    (heap1.set p { pred1 with next := pred1.next.set i (some newPtr) })
                else none
            else none

/-- Steps 3-4 of `insert` (after the duplicate check has passed): possibly
raise the list level, allocate the new node, link it in. -/
def insertRest (sl : SkipList) (v : Int) (newLevel : Nat) (upd : List (Option Nat)) :
    Option SkipList :=
  match (if sl.level < newLevel then
           fillUpdate sl.head (List.range' (sl.level + 1) (newLevel - sl.level)) upd
         else some upd) with
  | none => none
  | some upd2 =>
    let level2 := if sl.level < newLevel then newLevel else sl.level
    let newPtr := sl.heap.length
    let heap2 := sl.heap ++ [Node.new v (newLevel + 1)]
    match linkLoop newPtr upd2 (List.range (newLevel + 1)) heap2 with
    | none => none
    | some heap3 => some { heap := heap3, head := sl.head, level := level2 }

/-- `SkipList::insert(value)` with the drawn level passed explicitly. -/
def SkipList.insertWith (sl : SkipList) (v : Int) (newLevel : Nat) : Option SkipList :=
  match insertLoop sl.heap v (levelsDown sl.level) sl.head (List.replicate MAX_LEVEL none) with
  | none => none
  | some (upd, _) =>
    match upd[0]? with
    | none => none
    | some none => none
    | some (some p) =>
      match sl.heap[p]? with
      | none => none
      | some node =>
        match node.next[0]? with
        | none => none
        | some none => insertRest sl v newLevel upd
        | some (some q) =>
          match sl.heap[q]? with
          | none => none
          | some qn =>
            if qn.value = v then some sl
            else insertRest sl v newLevel upd

/-- `SkipList::insert(value)`: the level is drawn by `random_level` from the
boolean stream `s`. -/
def SkipList.insert (sl : SkipList) (v : Int) (s : Nat → Bool) : Option SkipList :=
  sl.insertWith v (random_level s)

/-- The chain of node indices obtained by repeatedly following the forward
slots at level `i`, starting from slot value `st`, with fuel. -/
def chainList (heap : Heap) (i : Nat) : Nat → Option Nat → List Nat
  | _, none => []
  | 0, some _ => []
  | fuel + 1, some p => p :: chainList heap i fuel (slotAt heap i p)

/-- The node indices visited by following the level-`i` forward links from
the head sentinel (the head itself excluded). -/
def levelPtrs (sl : SkipList) (i : Nat) : List Nat :=
  chainList sl.heap i sl.heap.length (slotAt sl.heap i 0)

/-- The values visited by a level-`i` traversal from the head. -/
def levelTraversal (sl : SkipList) (i : Nat) : List Int :=
  (levelPtrs sl i).map (valAt sl.heap)

/-- The states (and multiset of values inserted so far, most recent first)
reachable from `SkipList::new()` by `insert` calls, for arbitrary outcomes of
the random level generator. -/
inductive Reachable : SkipList → List Int → Prop
  | base : Reachable SkipList.new []
  | step {sl vs v s sl'} : Reachable sl vs → sl.insert v s = some sl' →
      Reachable sl' (v :: vs)

/-- The mathematical content of the rightward traversal: starting at `q`,
move to the next chain element while its value is below `v`; return the last
node reached. -/
def walk (heap : Heap) (v : Int) : Nat → List Nat → Nat
  | q, [] => q
  | q, p :: l => if valAt heap p < v then walk heap v p l else q

/-- `IsChain heap i s l`: starting from forward-slot value `s`, following the
level-`i` forward slots visits exactly the (valid) nodes `l` and then stops
on an empty slot. -/
inductive IsChain (heap : Heap) (i : Nat) : Option Nat → List Nat → Prop
  | nil : IsChain heap i none []
  | cons {p l} (hp : p < heap.length) (ht : IsChain heap i (slotAt heap i p) l) :
      IsChain heap i (some p) (p :: l)

/-- Every node of the arena has exactly `MAX_LEVEL` forward slots. -/
def WF (heap : Heap) : Prop := ∀ n ∈ heap, n.next.length = MAX_LEVEL

/-- The test `value-of-p < v` used to split a sorted chain around the
insertion point of `v`. -/
def isBelow (heap : Heap) (v : Int) (p : Nat) : Bool := decide (valAt heap p < v)

/-- The structural invariant of every reachable skip-list state.  `L i` is
the list of node indices on the level-`i` chain from the head sentinel and
`vs` the values inserted so far. -/
structure GoodState (sl : SkipList) (L : Nat → List Nat) (vs : List Int) : Prop where
  head_eq : sl.head = some 0
  head_pos : 0 < sl.heap.length
  head_val : valAt sl.heap 0 = -1
  level_lt : sl.level < MAX_LEVEL
  wf : WF sl.heap
  chain : ∀ i < MAX_LEVEL, IsChain sl.heap i (slotAt sl.heap i 0) (L i)
  sorted : ∀ i < MAX_LEVEL, (L i).Pairwise (fun a b => valAt sl.heap a < valAt sl.heap b)
  subset : ∀ i, i + 1 < MAX_LEVEL → L (i + 1) ⊆ L i
  empty_above : ∀ i, sl.level < i → i < MAX_LEVEL → L i = []
  no_head : ∀ i < MAX_LEVEL, 0 ∉ L i
  vals : ∀ x : Int, x ∈ (L 0).map (valAt sl.heap) ↔ x ∈ vs

/-- Overwrite the level-`i` forward slot of node `p` with `s`. -/
def setSlot (heap : Heap) (p i : Nat) (s : Option Nat) : Heap :=
  heap.set p { nodeAt heap p with next := (nodeAt heap p).next.set i s }

/-- One iteration of the linking loop of `insert` at level `i`: the new
node's slot `i` receives the predecessor's old successor, then the
predecessor's slot `i` is pointed at the new node. -/
def linkStep (newPtr pr i : Nat) (heap : Heap) : Heap :=
  setSlot (setSlot heap newPtr i (slotAt heap i pr)) pr i (some newPtr)

/-- The linking loop of `insert` run for levels `0, 1, ..., n`, with `pr i`
the predecessor recorded for level `i`. -/
def spliceRec (newPtr : Nat) (pr : Nat → Nat) (heap : Heap) : Nat → Heap
  | 0 => linkStep newPtr (pr 0) 0 heap
  | n + 1 => linkStep newPtr (pr (n + 1)) (n + 1) (spliceRec newPtr pr heap n)

/-- A concrete all-tails random stream: `random_level` always answers 0. -/
def sFalse : Nat → Bool := fun _ => false

/-- Insert with the all-tails stream, totalised for building demo states. -/
def demoInsert (sl : SkipList) (v : Int) : SkipList := (sl.insert v sFalse).getD sl

/-- The driver's scenario: insert 3, 6, 9, 2, 11, 1, 4 into a fresh list. -/
def demo : List Int → SkipList
  | [] => SkipList.new
  | v :: vs => demoInsert (demo vs) v

/-- A concrete all-heads random stream: `random_level` always answers
`MAX_LEVEL - 1`. -/
def sTrue : Nat → Bool := fun _ => true

/-- A one-element list whose node was drawn at the maximal level. -/
def demoTall : SkipList := (SkipList.new.insert 5 sTrue).getD SkipList.new

/-- The predecessor recorded for level `i` when inserting `v` with drawn
level `n` (the head, i.e. index 0, for the levels above the current one). -/
def prFun (sl : SkipList) (L : Nat → List Nat) (v : Int) (n : Nat) : Nat → Nat :=
  fun i => if i ≤ n then walk sl.heap v 0 (L i) else 0

/-- The arena after a non-duplicate `insert v` with drawn level `n`:
allocate the new node, then run the linking loop for levels `0..n`. -/
def splicedHeap (sl : SkipList) (L : Nat → List Nat) (v : Int) (n : Nat) : Heap :=
  spliceRec sl.heap.length (prFun sl L v n) (sl.heap ++ [Node.new v (n + 1)]) n

/-- The full state after a non-duplicate `insert v` with drawn level `n`. -/
def splicedState (sl : SkipList) (L : Nat → List Nat) (v : Int) (n : Nat) : SkipList :=
  { heap := splicedHeap sl L v n, head := sl.head,
    level := if sl.level < n then n else sl.level }

/-- The per-level chains after a non-duplicate `insert v` with drawn level
`n`: at the levels `0..n` the new node sits between the values below `v` and
the values above, the other levels are untouched. -/
def splicedChains (sl : SkipList) (L : Nat → List Nat) (v : Int) (n : Nat) : Nat → List Nat :=
  fun i => if i ≤ n
    then (L i).takeWhile (isBelow sl.heap v) ++
      sl.heap.length :: (L i).dropWhile (isBelow sl.heap v)
    else L i

/-! ### Basic reading lemmas -/

theorem getElem?_eq_some_getD {α : Type _} (l : List α) (d : α) (i : Nat)
    (h : i < l.length) : l[i]? = some (l.getD i d) := by
  rw [List.getD_eq_getElem?_getD, List.getElem?_eq_getElem h]
  rfl

theorem heap_getElem? (heap : Heap) (p : Nat) (h : p < heap.length) :
    heap[p]? = some (nodeAt heap p) :=
  getElem?_eq_some_getD heap default p h

theorem nodeAt_mem (heap : Heap) (p : Nat) (h : p < heap.length) :
    nodeAt heap p ∈ heap := by
  unfold nodeAt
  rw [List.getD_eq_getElem heap default h]
  exact List.getElem_mem h

theorem next_getElem? (heap : Heap) (p i : Nat) (hw : WF heap)
    (hp : p < heap.length) (hi : i < MAX_LEVEL) :
    (nodeAt heap p).next[i]? = some (slotAt heap i p) := by
  apply getElem?_eq_some_getD
  rw [hw _ (nodeAt_mem heap p hp)]
  exact hi

/-! ### Chain lemmas -/

theorem IsChain.slot_nil {heap : Heap} {i : Nat} {s : Option Nat}
    (h : IsChain heap i s []) : s = none := by
  cases h
  rfl

theorem IsChain.slot_cons {heap : Heap} {i p : Nat} {s : Option Nat} {l : List Nat}
    (h : IsChain heap i s (p :: l)) :
    s = some p ∧ p < heap.length ∧ IsChain heap i (slotAt heap i p) l := by
  cases h
  exact ⟨rfl, by assumption, by assumption⟩

theorem IsChain.mem_lt {heap : Heap} {i : Nat} {s : Option Nat} {l : List Nat}
    (h : IsChain heap i s l) : ∀ p ∈ l, p < heap.length := by
  induction h with
  | nil => intro p hp; cases hp
  | cons hp _ ih =>
    intro q hq
    rcases List.mem_cons.mp hq with rfl | hq
    · exact hp
    · exact ih q hq

theorem IsChain.det {heap : Heap} {i : Nat} {s : Option Nat} {l₁ l₂ : List Nat}
    (h₁ : IsChain heap i s l₁) (h₂ : IsChain heap i s l₂) : l₁ = l₂ := by
  induction h₁ generalizing l₂ with
  | nil =>
    cases l₂ with
    | nil => rfl
    | cons q t =>
      obtain ⟨hs, -, -⟩ := h₂.slot_cons
      cases hs
  | cons hp ht ih =>
    cases l₂ with
    | nil => cases h₂.slot_nil
    | cons q t =>
      obtain ⟨hs, _, ht₂⟩ := h₂.slot_cons
      cases hs
      rw [ih ht₂]

theorem IsChain.suffix {heap : Heap} {i : Nat} {s : Option Nat} {l₁ l₂ : List Nat} {p : Nat}
    (h : IsChain heap i s (l₁ ++ p :: l₂)) : IsChain heap i (slotAt heap i p) l₂ := by
  induction l₁ generalizing s with
  | nil => exact h.slot_cons.2.2
  | cons a t ih => exact ih h.slot_cons.2.2

theorem chainList_spec {heap : Heap} {i : Nat} {s : Option Nat} {l : List Nat}
    (h : IsChain heap i s l) : ∀ fuel, l.length ≤ fuel → chainList heap i fuel s = l := by
  induction h with
  | nil => intro fuel _; cases fuel <;> rfl
  | cons hp ht ih =>
    intro fuel hf
    cases fuel with
    | zero => simp at hf
    | succ f =>
      simp only [chainList]
      rw [ih f (by simpa using hf)]

/-! ### Walk lemmas -/

theorem walk_nil (heap : Heap) (v : Int) (q : Nat) : walk heap v q [] = q := rfl

theorem walk_cons (heap : Heap) (v : Int) (q p : Nat) (l : List Nat) :
    walk heap v q (p :: l) = if valAt heap p < v then walk heap v p l else q := rfl

theorem walk_mem (heap : Heap) (v : Int) (q : Nat) (l : List Nat) :
    walk heap v q l = q ∨ (walk heap v q l ∈ l ∧ valAt heap (walk heap v q l) < v) := by
  induction l generalizing q with
  | nil => exact Or.inl rfl
  | cons p t ih =>
    rw [walk_cons]
    by_cases hp : valAt heap p < v
    · rw [if_pos hp]
      rcases ih p with h | ⟨h₁, h₂⟩
      · exact Or.inr ⟨by rw [h]; exact List.mem_cons_self p t, by rw [h]; exact hp⟩
      · exact Or.inr ⟨List.mem_cons_of_mem p h₁, h₂⟩
    · rw [if_neg hp]
      exact Or.inl rfl

theorem walk_app (heap : Heap) (v : Int) (q r : Nat) (l₁ l₂ : List Nat)
    (h₁ : ∀ p ∈ l₁, valAt heap p < v) (hr : valAt heap r < v) :
    walk heap v q (l₁ ++ r :: l₂) = walk heap v r l₂ := by
  induction l₁ generalizing q with
  | nil => rw [List.nil_append, walk_cons, if_pos hr]
  | cons a t ih =>
    rw [List.cons_append, walk_cons, if_pos (h₁ a (List.mem_cons_self a t))]
    exact ih a fun p hp => h₁ p (List.mem_cons_of_mem a hp)

theorem walk_getLastD (heap : Heap) (v : Int) (q : Nat) (l : List Nat) :
    walk heap v q l = (l.takeWhile (isBelow heap v)).getLastD q := by
  induction l generalizing q with
  | nil => rfl
  | cons p t ih =>
    rw [walk_cons]
    by_cases hp : valAt heap p < v
    · rw [if_pos hp, ih p,
        List.takeWhile_cons_of_pos (show isBelow heap v p = true from decide_eq_true hp),
        List.getLastD_cons]
    · rw [if_neg hp, List.takeWhile_cons_of_neg (by simpa [isBelow] using hp)]
      rfl

theorem getLastD_mem {α : Type _} (l : List α) (x : α) : l.getLastD x ∈ x :: l := by
  induction l generalizing x with
  | nil => exact List.mem_cons_self x []
  | cons a t ih =>
    rw [List.getLastD_cons]
    exact List.mem_cons_of_mem x (ih a)

/-- The splitting of a chain around the walk's stopping point: the nodes
after the stopping point are exactly those the walk refused to pass. -/
theorem chain_split_walk {heap : Heap} {i : Nat} {v : Int} {q : Nat} {l : List Nat}
    (h : IsChain heap i (slotAt heap i q) l) :
    IsChain heap i (slotAt heap i (walk heap v q l)) (l.dropWhile (isBelow heap v)) := by
  induction l generalizing q with
  | nil => exact h
  | cons p t ih =>
    obtain ⟨-, -, ht⟩ := h.slot_cons
    rw [walk_cons, List.dropWhile_cons]
    by_cases hp : valAt heap p < v
    · rw [if_pos hp]
      have : isBelow heap v p = true := decide_eq_true hp
      rw [this]
      simpa using ih ht
    · rw [if_neg hp]
      have : isBelow heap v p = false := decide_eq_false hp
      rw [this]
      simpa using h

/-! ### The rightward loop computes the walk -/

theorem findPred_spec {heap : Heap} {v : Int} {i : Nat} (hw : WF heap) (hi : i < MAX_LEVEL) :
    ∀ (l : List Nat) (q fuel : Nat), IsChain heap i (slotAt heap i q) l →
      q < heap.length → l.length < fuel →
      findPred heap i v fuel (some q) = some (some (walk heap v q l)) := by
  intro l
  induction l with
  | nil =>
    intro q fuel hch hq hf
    cases fuel with
    | zero => cases hf
    | succ f =>
      simp only [findPred, heap_getElem? heap q hq, next_getElem? heap q i hw hq hi,
        hch.slot_nil]
      rfl
  | cons p t ih =>
    intro q fuel hch hq hf
    cases fuel with
    | zero => cases hf
    | succ f =>
      obtain ⟨hs, hp, ht⟩ := hch.slot_cons
      simp only [findPred, heap_getElem? heap q hq, next_getElem? heap q i hw hq hi, hs,
        heap_getElem? heap p hp]
      rw [walk_cons]
      by_cases hpv : valAt heap p < v
      · rw [if_pos (show (nodeAt heap p).value < v from hpv), if_pos hpv]
        exact ih p f ht hp (by simpa using Nat.lt_of_succ_lt_succ hf)
      · rw [if_neg (show ¬ (nodeAt heap p).value < v from hpv), if_neg hpv]

/-! ### Sorted chains -/

theorem sorted_nodup {heap : Heap} {l : List Nat}
    (h : l.Pairwise (fun a b => valAt heap a < valAt heap b)) : l.Nodup :=
  h.imp fun hab => by intro hEq; rw [hEq] at hab; exact lt_irrefl _ hab

theorem nodup_bounded_length {l : List Nat} {n : Nat} (h : l.Nodup)
    (hb : ∀ x ∈ l, x < n) : l.length ≤ n := by
  have hsub : l.toFinset ⊆ Finset.range n := by
    intro x hx
    rw [List.mem_toFinset] at hx
    exact Finset.mem_range.mpr (hb x hx)
  have := Finset.card_le_card hsub
  rwa [List.toFinset_card_of_nodup h, Finset.card_range] at this

theorem chain_length_le {heap : Heap} {i : Nat} {s : Option Nat} {l : List Nat}
    (hch : IsChain heap i s l)
    (hs : l.Pairwise (fun a b => valAt heap a < valAt heap b)) :
    l.length ≤ heap.length :=
  nodup_bounded_length (sorted_nodup hs) hch.mem_lt

/-- Restarting the rightward walk anywhere inside the already-passed part of
a sorted chain reaches the same stopping point as walking from the head. -/
theorem restart {heap : Heap} {i : Nat} {v : Int} {li : List Nat} {q : Nat}
    (hch : IsChain heap i (slotAt heap i 0) li)
    (hs : li.Pairwise (fun a b => valAt heap a < valAt heap b))
    (hq : q = 0 ∨ (q ∈ li ∧ valAt heap q < v)) :
    ∃ l, IsChain heap i (slotAt heap i q) l ∧ l.length ≤ li.length ∧
      walk heap v q l = walk heap v 0 li := by
  rcases hq with rfl | ⟨hmem, hqv⟩
  · exact ⟨li, hch, Nat.le_refl _, rfl⟩
  · obtain ⟨l₁, l₂, rfl⟩ := List.append_of_mem hmem
    refine ⟨l₂, hch.suffix, by rw [List.length_append, List.length_cons]; omega, ?_⟩
    have hcross := (List.pairwise_append.mp (by simpa using hs)).2.2
    exact (walk_app heap v 0 q l₁ l₂
      (fun p hp => lt_trans (hcross p hp q (List.mem_cons_self q l₂)) hqv) hqv).symm

theorem levelsDown_zero : levelsDown 0 = [0] := rfl

theorem levelsDown_succ (j : Nat) : levelsDown (j + 1) = (j + 1) :: levelsDown j := by
  unfold levelsDown
  rw [List.range_succ, List.reverse_append]
  rfl

/-- The descending traversal, started at the head with the list's level,
stops at the level-0 walk's stopping point. -/
theorem descend_spec {heap : Heap} {v : Int} {L : Nat → List Nat}
    (hw : WF heap) (h0 : 0 < heap.length)
    (hch : ∀ i < MAX_LEVEL, IsChain heap i (slotAt heap i 0) (L i))
    (hs : ∀ i < MAX_LEVEL, (L i).Pairwise (fun a b => valAt heap a < valAt heap b))
    (hsub : ∀ i, i + 1 < MAX_LEVEL → L (i + 1) ⊆ L i) :
    ∀ j, j < MAX_LEVEL → ∀ q, (q = 0 ∨ (q ∈ L j ∧ valAt heap q < v)) → q < heap.length →
      descend heap v (levelsDown j) (some q) = some (some (walk heap v 0 (L 0))) := by
  intro j
  induction j with
  | zero =>
    intro _ q hq hqlen
    obtain ⟨l, hl, hlen, hwalk⟩ := restart (hch 0 (by decide)) (hs 0 (by decide)) hq
    rw [levelsDown_zero]
    simp only [descend]
    rw [findPred_spec hw (by decide) l q (heap.length + 1) hl hqlen
      (Nat.lt_succ_of_le (le_trans hlen (chain_length_le (hch 0 (by decide)) (hs 0 (by decide)))))]
    rw [hwalk]
  | succ j ih =>
    intro hj q hq hqlen
    have hj' : j < MAX_LEVEL := Nat.lt_of_succ_lt hj
    obtain ⟨l, hl, hlen, hwalk⟩ := restart (hch (j + 1) hj) (hs (j + 1) hj) hq
    rw [levelsDown_succ]
    simp only [descend]
    rw [findPred_spec hw hj l q (heap.length + 1) hl hqlen
      (Nat.lt_succ_of_le (le_trans hlen (chain_length_le (hch (j + 1) hj) (hs (j + 1) hj))))]
    rw [hwalk]
    have hr := walk_mem heap v 0 (L (j + 1))
    rcases hr with hr0 | ⟨hrm, hrv⟩
    · exact ih hj' _ (Or.inl hr0) (by rw [hr0]; exact h0)
    · exact ih hj' _ (Or.inr ⟨hsub j hj hrm, hrv⟩)
        ((hch (j + 1) hj).mem_lt _ hrm)

/-- The level-`i` successor of the walk's stopping point: absent when `v`
is not in the chain (and the chain holds nothing `≥ v`), otherwise it carries
`v` exactly when `v` is in the chain. -/
theorem walk_succ {heap : Heap} {i : Nat} {v : Int} {l : List Nat} :
    ∀ q, IsChain heap i (slotAt heap i q) l →
      l.Pairwise (fun a b => valAt heap a < valAt heap b) →
      (slotAt heap i (walk heap v q l) = none ∧ v ∉ l.map (valAt heap)) ∨
      (∃ p', slotAt heap i (walk heap v q l) = some p' ∧ p' < heap.length ∧
        (valAt heap p' = v ↔ v ∈ l.map (valAt heap))) := by
  induction l with
  | nil =>
    intro q hch _
    exact Or.inl ⟨hch.slot_nil, by simp⟩
  | cons p t ih =>
    intro q hch hs
    obtain ⟨hsq, hp, ht⟩ := hch.slot_cons
    rw [walk_cons]
    by_cases hpv : valAt heap p < v
    · rw [if_pos hpv]
      have hmemEq : (v ∈ (p :: t).map (valAt heap)) ↔ (v ∈ t.map (valAt heap)) := by
        simp only [List.map_cons, List.mem_cons]
        constructor
        · rintro (rfl | h)
          · exact absurd hpv (lt_irrefl _)
          · exact h
        · exact Or.inr
      rcases ih p ht (List.Pairwise.of_cons hs) with ⟨h₁, h₂⟩ | ⟨p', h₁, h₂, h₃⟩
      · exact Or.inl ⟨h₁, fun hmem => h₂ (hmemEq.mp hmem)⟩
      · exact Or.inr ⟨p', h₁, h₂, h₃.trans hmemEq.symm⟩
    · rw [if_neg hpv]
      refine Or.inr ⟨p, hsq, hp, ?_⟩
      constructor
      · intro hEq
        rw [List.map_cons, hEq]
        exact List.mem_cons_self v _
      · intro hmem
        rw [List.map_cons, List.mem_cons] at hmem
        rcases hmem with hEq | hmem
        · exact hEq.symm
        · obtain ⟨x, hx, hxv⟩ := List.mem_map.mp hmem
          have hlt := (List.pairwise_cons.mp hs).1 x hx
          rw [hxv] at hlt
          exact absurd hlt hpv

theorem checkAfter_spec {heap : Heap} {v : Int} {q : Nat} {l : List Nat}
    (hw : WF heap) (hq : q < heap.length)
    (hch : IsChain heap 0 (slotAt heap 0 q) l)
    (hs : l.Pairwise (fun a b => valAt heap a < valAt heap b)) :
    checkAfter heap v (some (walk heap v q l)) = some (decide (v ∈ l.map (valAt heap))) := by
  have hwlt : walk heap v q l < heap.length := by
    rcases walk_mem heap v q l with h | ⟨h, -⟩
    · rw [h]; exact hq
    · exact hch.mem_lt _ h
  simp only [checkAfter, heap_getElem? heap _ hwlt,
    next_getElem? heap _ 0 hw hwlt (by decide)]
  rcases walk_succ q hch hs with ⟨h₁, h₂⟩ | ⟨p', h₁, h₂, h₃⟩
  · rw [h₁]
    simp [h₂]
  · rw [h₁]
    simp only [heap_getElem? heap p' h₂]
    congr 1
    exact decide_eq_decide.mpr (by constructor <;> intro h <;> [exact h₃.mp h; exact h₃.mpr h])

/-- `search` decides membership in the set of inserted values. -/
theorem search_spec {sl : SkipList} {L : Nat → List Nat} {vs : List Int}
    (g : GoodState sl L vs) (v : Int) : sl.search v = some (decide (v ∈ vs)) := by
  unfold SkipList.search
  rw [g.head_eq,
    descend_spec g.wf g.head_pos g.chain g.sorted g.subset sl.level g.level_lt 0
      (Or.inl rfl) g.head_pos]
  exact (checkAfter_spec g.wf g.head_pos (g.chain 0 (by decide))
    (g.sorted 0 (by decide))).trans (congrArg some (decide_eq_decide.mpr (g.vals v)))

/-! ### Writing forward slots -/

theorem nodeAt_eq_getElem? (heap : Heap) (q : Nat) :
    nodeAt heap q = (heap[q]?).getD default :=
  List.getD_eq_getElem?_getD heap q default

theorem nodeAt_set_self {heap : Heap} {p : Nat} (n' : Node) (hp : p < heap.length) :
    nodeAt (heap.set p n') p = n' := by
  rw [nodeAt_eq_getElem?, List.getElem?_set_eq_of_lt n' hp]
  rfl

theorem nodeAt_set_ne {heap : Heap} {p q : Nat} (n' : Node) (hne : q ≠ p) :
    nodeAt (heap.set p n') q = nodeAt heap q := by
  rw [nodeAt_eq_getElem?, List.getElem?_set_ne (Ne.symm hne), ← nodeAt_eq_getElem?]

theorem length_setSlot (heap : Heap) (p i : Nat) (s : Option Nat) :
    (setSlot heap p i s).length = heap.length :=
  List.length_set heap p _

theorem valAt_setSlot (heap : Heap) (p i : Nat) (s : Option Nat) (q : Nat) :
    valAt (setSlot heap p i s) q = valAt heap q := by
  unfold valAt setSlot
  by_cases hq : q = p
  · subst hq
    by_cases hp : q < heap.length
    · rw [nodeAt_set_self _ hp]
    · rw [List.set_eq_of_length_le (Nat.le_of_not_lt hp)]
  · rw [nodeAt_set_ne _ hq]

theorem wf_setSlot {heap : Heap} {p : Nat} (i : Nat) (s : Option Nat)
    (hw : WF heap) (hp : p < heap.length) : WF (setSlot heap p i s) := by
  intro n hn
  rcases List.mem_or_eq_of_mem_set hn with hn | rfl
  · exact hw n hn
  · show ((nodeAt heap p).next.set i s).length = MAX_LEVEL
    rw [List.length_set]
    exact hw _ (nodeAt_mem heap p hp)

theorem slotAt_setSlot_self {heap : Heap} {p i : Nat} (s : Option Nat)
    (hp : p < heap.length) (hi : i < (nodeAt heap p).next.length) :
    slotAt (setSlot heap p i s) i p = s := by
  unfold slotAt setSlot
  rw [nodeAt_set_self _ hp, List.getD_eq_getElem?_getD,
    List.getElem?_set_eq_of_lt s hi]
  rfl

theorem slotAt_setSlot_ne_ptr {heap : Heap} {p q : Nat} (i j : Nat) (s : Option Nat)
    (hne : q ≠ p) : slotAt (setSlot heap p i s) j q = slotAt heap j q := by
  unfold slotAt setSlot
  rw [nodeAt_set_ne _ hne]

theorem slotAt_setSlot_ne_level {heap : Heap} {i j : Nat} (p q : Nat) (s : Option Nat)
    (hne : j ≠ i) : slotAt (setSlot heap p i s) j q = slotAt heap j q := by
  unfold slotAt setSlot
  by_cases hq : q = p
  · subst hq
    by_cases hp : q < heap.length
    · rw [nodeAt_set_self _ hp, List.getD_eq_getElem?_getD,
        List.getElem?_set_ne (Ne.symm hne), ← List.getD_eq_getElem?_getD]
    · rw [List.set_eq_of_length_le (Nat.le_of_not_lt hp)]
  · rw [nodeAt_set_ne _ hq]

/-! ### One linking iteration -/

theorem length_linkStep (newPtr pr i : Nat) (heap : Heap) :
    (linkStep newPtr pr i heap).length = heap.length := by
  unfold linkStep
  rw [length_setSlot, length_setSlot]

theorem wf_linkStep {heap : Heap} {newPtr pr : Nat} (i : Nat) (hw : WF heap)
    (hnp : newPtr < heap.length) (hpr : pr < heap.length) :
    WF (linkStep newPtr pr i heap) := by
  unfold linkStep
  exact wf_setSlot i _ (wf_setSlot i _ hw hnp) (by rwa [length_setSlot])

theorem valAt_linkStep (newPtr pr i : Nat) (heap : Heap) (q : Nat) :
    valAt (linkStep newPtr pr i heap) q = valAt heap q := by
  unfold linkStep
  rw [valAt_setSlot, valAt_setSlot]

theorem slotAt_linkStep_ne_level {heap : Heap} {i j : Nat} (newPtr pr q : Nat)
    (hne : j ≠ i) : slotAt (linkStep newPtr pr i heap) j q = slotAt heap j q := by
  unfold linkStep
  rw [slotAt_setSlot_ne_level _ _ _ hne, slotAt_setSlot_ne_level _ _ _ hne]

theorem slotAt_linkStep_newPtr {heap : Heap} {newPtr pr i : Nat} (hw : WF heap)
    (hnp : newPtr < heap.length) (hne : pr ≠ newPtr) (hi : i < MAX_LEVEL) :
    slotAt (linkStep newPtr pr i heap) i newPtr = slotAt heap i pr := by
  unfold linkStep
  rw [slotAt_setSlot_ne_ptr _ _ _ (Ne.symm hne),
    slotAt_setSlot_self _ hnp (by rw [hw _ (nodeAt_mem heap newPtr hnp)]; exact hi)]

theorem slotAt_linkStep_pr {heap : Heap} {newPtr pr i : Nat} (hw : WF heap)
    (hnp : newPtr < heap.length) (hpr : pr < heap.length) (hi : i < MAX_LEVEL) :
    slotAt (linkStep newPtr pr i heap) i pr = some newPtr := by
  unfold linkStep
  have hwf1 : WF (setSlot heap newPtr i (slotAt heap i pr)) := wf_setSlot i _ hw hnp
  have hpr1 : pr < (setSlot heap newPtr i (slotAt heap i pr)).length := by
    rwa [length_setSlot]
  exact slotAt_setSlot_self _ hpr1 (by rw [hwf1 _ (nodeAt_mem _ pr hpr1)]; exact hi)

theorem slotAt_linkStep_other {heap : Heap} {newPtr pr : Nat} (i j : Nat) {q : Nat}
    (hq1 : q ≠ newPtr) (hq2 : q ≠ pr) :
    slotAt (linkStep newPtr pr i heap) j q = slotAt heap j q := by
  unfold linkStep
  rw [slotAt_setSlot_ne_ptr _ _ _ hq2, slotAt_setSlot_ne_ptr _ _ _ hq1]

/-! ### The whole linking loop -/

theorem spliceRec_length (newPtr : Nat) (pr : Nat → Nat) (heap : Heap) :
    ∀ n, (spliceRec newPtr pr heap n).length = heap.length := by
  intro n
  induction n with
  | zero => exact length_linkStep _ _ _ _
  | succ n ih => rw [spliceRec, length_linkStep, ih]

theorem spliceRec_wf {newPtr : Nat} {pr : Nat → Nat} {heap : Heap} (hw : WF heap)
    (hnp : newPtr < heap.length) (hpr : ∀ j, pr j < heap.length) :
    ∀ n, WF (spliceRec newPtr pr heap n) := by
  intro n
  induction n with
  | zero => exact wf_linkStep 0 hw hnp (hpr 0)
  | succ n ih =>
    exact wf_linkStep (n + 1) ih (by rw [spliceRec_length]; exact hnp)
      (by rw [spliceRec_length]; exact hpr (n + 1))

theorem spliceRec_valAt (newPtr : Nat) (pr : Nat → Nat) (heap : Heap) (q : Nat) :
    ∀ n, valAt (spliceRec newPtr pr heap n) q = valAt heap q := by
  intro n
  induction n with
  | zero => exact valAt_linkStep _ _ _ _ _
  | succ n ih => rw [spliceRec, valAt_linkStep, ih]

theorem spliceRec_slot_high (newPtr : Nat) (pr : Nat → Nat) (heap : Heap) :
    ∀ n j q, n < j → slotAt (spliceRec newPtr pr heap n) j q = slotAt heap j q := by
  intro n
  induction n with
  | zero =>
    intro j q hj
    exact slotAt_linkStep_ne_level _ _ _ (Nat.ne_of_gt hj)
  | succ n ih =>
    intro j q hj
    rw [spliceRec, slotAt_linkStep_ne_level _ _ _ (Nat.ne_of_gt hj)]
    exact ih j q (Nat.lt_of_succ_lt hj)

theorem spliceRec_slot_newPtr {newPtr : Nat} {pr : Nat → Nat} {heap : Heap} (hw : WF heap)
    (hnp : newPtr < heap.length) (hpr : ∀ j, pr j < heap.length)
    (hne : ∀ j, pr j ≠ newPtr) :
    ∀ n, n < MAX_LEVEL → ∀ j, j ≤ n →
      slotAt (spliceRec newPtr pr heap n) j newPtr = slotAt heap j (pr j) := by
  intro n
  induction n with
  | zero =>
    intro hn j hj
    cases Nat.le_zero.mp hj
    exact slotAt_linkStep_newPtr hw hnp (hne 0) hn
  | succ n ih =>
    intro hn j hj
    rcases Nat.lt_or_ge j (n + 1) with hlt | hge
    · rw [spliceRec, slotAt_linkStep_ne_level _ _ _ (Nat.ne_of_lt hlt)]
      exact ih (Nat.lt_of_succ_lt hn) j (Nat.lt_succ_iff.mp hlt)
    · have hj' : j = n + 1 := Nat.le_antisymm hj hge
      subst hj'
      rw [spliceRec,
        slotAt_linkStep_newPtr (spliceRec_wf hw hnp hpr n)
          (by rw [spliceRec_length]; exact hnp) (hne (n + 1)) hn,
        spliceRec_slot_high _ _ _ n (n + 1) (pr (n + 1)) (Nat.lt_succ_self n)]

theorem spliceRec_slot_pr {newPtr : Nat} {pr : Nat → Nat} {heap : Heap} (hw : WF heap)
    (hnp : newPtr < heap.length) (hpr : ∀ j, pr j < heap.length) :
    ∀ n, n < MAX_LEVEL → ∀ j, j ≤ n →
      slotAt (spliceRec newPtr pr heap n) j (pr j) = some newPtr := by
  intro n
  induction n with
  | zero =>
    intro hn j hj
    cases Nat.le_zero.mp hj
    exact slotAt_linkStep_pr hw hnp (hpr 0) hn
  | succ n ih =>
    intro hn j hj
    rcases Nat.lt_or_ge j (n + 1) with hlt | hge
    · rw [spliceRec, slotAt_linkStep_ne_level _ _ _ (Nat.ne_of_lt hlt)]
      exact ih (Nat.lt_of_succ_lt hn) j (Nat.lt_succ_iff.mp hlt)
    · have hj' : j = n + 1 := Nat.le_antisymm hj hge
      subst hj'
      rw [spliceRec]
      exact slotAt_linkStep_pr (spliceRec_wf hw hnp hpr n)
        (by rw [spliceRec_length]; exact hnp)
        (by rw [spliceRec_length]; exact hpr (n + 1)) hn

theorem spliceRec_slot_other (newPtr : Nat) (pr : Nat → Nat) (heap : Heap) :
    ∀ n j {q}, q ≠ newPtr → q ≠ pr j →
      slotAt (spliceRec newPtr pr heap n) j q = slotAt heap j q := by
  intro n
  induction n with
  | zero =>
    intro j q hq1 hq2
    by_cases hj : j = 0
    · subst hj
      exact slotAt_linkStep_other 0 0 hq1 hq2
    · exact slotAt_linkStep_ne_level _ _ _ hj
  | succ n ih =>
    intro j q hq1 hq2
    by_cases hj : j = n + 1
    · subst hj
      rw [spliceRec, slotAt_linkStep_other (n + 1) (n + 1) hq1 hq2]
      exact spliceRec_slot_high _ _ _ n (n + 1) q (Nat.lt_succ_self n)
    · rw [spliceRec, slotAt_linkStep_ne_level _ _ _ hj]
      exact ih j hq1 hq2

/-! ### The loop implementations compute the splice -/

theorem getD_set_self {l : List (Option Nat)} {i : Nat} (a : Option Nat)
    (h : i < l.length) : (l.set i a).getD i none = a := by
  rw [List.getD_eq_getElem?_getD, List.getElem?_set_eq_of_lt a h]
  rfl

theorem getD_set_ne {l : List (Option Nat)} {i j : Nat} (a : Option Nat)
    (h : j ≠ i) : (l.set i a).getD j none = l.getD j none := by
  rw [List.getD_eq_getElem?_getD, List.getElem?_set_ne (Ne.symm h),
    ← List.getD_eq_getElem?_getD]

theorem insertLoop_cons {heap : Heap} {v : Int} {i : Nat} {rest : List Nat}
    {cur : Option Nat} {upd : List (Option Nat)} {cur' : Option Nat}
    (hfp : findPred heap i v (heap.length + 1) cur = some cur') (hi : i < upd.length) :
    insertLoop heap v (i :: rest) cur upd = insertLoop heap v rest cur' (upd.set i cur') := by
  simp only [insertLoop, hfp]
  rw [if_pos hi]

theorem linkLoop_cons {newPtr : Nat} {upd : List (Option Nat)} {i : Nat} {rest : List Nat}
    {heap : Heap} {p : Nat}
    (h1 : upd[i]? = some (some p)) (h2 : p < heap.length) (h3 : newPtr < heap.length)
    (h4 : i < (nodeAt heap p).next.length) (h5 : i < (nodeAt heap newPtr).next.length)
    (h6 : i < (nodeAt (setSlot heap newPtr i (slotAt heap i p)) p).next.length) :
    linkLoop newPtr upd (i :: rest) heap =
      linkLoop newPtr upd rest (linkStep newPtr p i heap) := by
  have hp1 : p < (setSlot heap newPtr i (slotAt heap i p)).length := by
    rw [length_setSlot]; exact h2
  simp only [linkLoop, h1, heap_getElem? heap p h2,
    getElem?_eq_some_getD (nodeAt heap p).next none i h4,
    heap_getElem? heap newPtr h3]
  rw [if_pos h5]
  show (match (setSlot heap newPtr i (slotAt heap i p))[p]? with
    | none => none
    | some pred1 =>
      if i < pred1.next.length then
        linkLoop newPtr upd rest
          ((setSlot heap newPtr i (slotAt heap i p)).set p
            { pred1 with next := pred1.next.set i (some newPtr) })
      else none) = linkLoop newPtr upd rest (linkStep newPtr p i heap)
  simp only [heap_getElem? _ p hp1]
  rw [if_pos h6]
  rfl

theorem linkLoop_spec {newPtr : Nat} {upd : List (Option Nat)} {pr : Nat → Nat} :
    ∀ (lvls : List Nat) (heap : Heap), WF heap → newPtr < heap.length →
      (∀ i ∈ lvls, i < MAX_LEVEL) →
      (∀ i ∈ lvls, upd[i]? = some (some (pr i))) →
      (∀ i ∈ lvls, pr i < heap.length) →
      linkLoop newPtr upd lvls heap =
        some (lvls.foldl (fun h i => linkStep newPtr (pr i) i h) heap) := by
  intro lvls
  induction lvls with
  | nil => intro heap _ _ _ _ _; rfl
  | cons i rest ih =>
    intro heap hw hnp hlt hupd hpr
    have hi : i < MAX_LEVEL := hlt i (List.mem_cons_self i rest)
    have hpri : pr i < heap.length := hpr i (List.mem_cons_self i rest)
    have h16 : ∀ q, q < heap.length → (nodeAt heap q).next.length = MAX_LEVEL :=
      fun q hq => hw _ (nodeAt_mem heap q hq)
    have hwf1 : WF (setSlot heap newPtr i (slotAt heap i (pr i))) :=
      wf_setSlot i _ hw hnp
    have hpri1 : pr i < (setSlot heap newPtr i (slotAt heap i (pr i))).length := by
      rw [length_setSlot]; exact hpri
    rw [linkLoop_cons (hupd i (List.mem_cons_self i rest)) hpri hnp
      (by rw [h16 _ hpri]; exact hi) (by rw [h16 _ hnp]; exact hi)
      (by rw [hwf1 _ (nodeAt_mem _ _ hpri1)]; exact hi)]
    rw [ih (linkStep newPtr (pr i) i heap)
      (wf_linkStep i hw hnp hpri)
      (by rw [length_linkStep]; exact hnp)
      (fun j hj => hlt j (List.mem_cons_of_mem i hj))
      (fun j hj => hupd j (List.mem_cons_of_mem i hj))
      (fun j hj => by rw [length_linkStep]; exact hpr j (List.mem_cons_of_mem i hj))]
    rfl

theorem foldl_linkStep_range (newPtr : Nat) (pr : Nat → Nat) (heap : Heap) :
    ∀ n, (List.range (n + 1)).foldl (fun h i => linkStep newPtr (pr i) i h) heap =
      spliceRec newPtr pr heap n := by
  intro n
  induction n with
  | zero => rfl
  | succ n ih =>
    rw [List.range_succ, List.foldl_append, ih]
    rfl

/-! ### The descending record-keeping loop of insert -/

theorem insertLoop_spec {heap : Heap} {v : Int} {L : Nat → List Nat}
    (hw : WF heap) (h0 : 0 < heap.length)
    (hch : ∀ i < MAX_LEVEL, IsChain heap i (slotAt heap i 0) (L i))
    (hs : ∀ i < MAX_LEVEL, (L i).Pairwise (fun a b => valAt heap a < valAt heap b))
    (hsub : ∀ i, i + 1 < MAX_LEVEL → L (i + 1) ⊆ L i) :
    ∀ j, j < MAX_LEVEL → ∀ q, (q = 0 ∨ (q ∈ L j ∧ valAt heap q < v)) → q < heap.length →
      ∀ upd : List (Option Nat), upd.length = MAX_LEVEL →
      ∃ upd', insertLoop heap v (levelsDown j) (some q) upd =
          some (upd', some (walk heap v 0 (L 0))) ∧
        upd'.length = MAX_LEVEL ∧
        (∀ i, i ≤ j → upd'.getD i none = some (walk heap v 0 (L i))) ∧
        (∀ i, j < i → upd'.getD i none = upd.getD i none) := by
  intro j
  induction j with
  | zero =>
    intro hj q hq hqlen upd hlen
    obtain ⟨l, hl, hlen', hwalk⟩ := restart (hch 0 hj) (hs 0 hj) hq
    rw [levelsDown_zero,
      insertLoop_cons (findPred_spec hw hj l q (heap.length + 1) hl hqlen
        (Nat.lt_succ_of_le (le_trans hlen' (chain_length_le (hch 0 hj) (hs 0 hj)))))
        (by rw [hlen]; decide)]
    refine ⟨upd.set 0 (some (walk heap v q l)), by rw [hwalk]; rfl, ?_, ?_, ?_⟩
    · rw [List.length_set]; exact hlen
    · intro i hi
      cases Nat.le_zero.mp hi
      rw [getD_set_self _ (by rw [hlen]; decide), hwalk]
    · intro i hi
      rw [getD_set_ne _ (Nat.ne_of_gt hi)]
  | succ j ih =>
    intro hj q hq hqlen upd hlen
    have hj' : j < MAX_LEVEL := Nat.lt_of_succ_lt hj
    obtain ⟨l, hl, hlen', hwalk⟩ := restart (hch (j + 1) hj) (hs (j + 1) hj) hq
    rw [levelsDown_succ,
      insertLoop_cons (findPred_spec hw hj l q (heap.length + 1) hl hqlen
        (Nat.lt_succ_of_le (le_trans hlen' (chain_length_le (hch (j + 1) hj) (hs (j + 1) hj)))))
        (by rw [hlen]; exact hj)]
    rw [hwalk]
    have hr := walk_mem heap v 0 (L (j + 1))
    have hGood : walk heap v 0 (L (j + 1)) = 0 ∨
        (walk heap v 0 (L (j + 1)) ∈ L j ∧ valAt heap (walk heap v 0 (L (j + 1))) < v) := by
      rcases hr with hr0 | ⟨hrm, hrv⟩
      · exact Or.inl hr0
      · exact Or.inr ⟨hsub j hj hrm, hrv⟩
    have hrlen : walk heap v 0 (L (j + 1)) < heap.length := by
      rcases hr with hr0 | ⟨hrm, -⟩
      · rw [hr0]; exact h0
      · exact (hch (j + 1) hj).mem_lt _ hrm
    obtain ⟨upd', hrun, hulen, hle, hgt⟩ := ih hj' _ hGood hrlen
      (upd.set (j + 1) (some (walk heap v 0 (L (j + 1)))))
      (by rw [List.length_set]; exact hlen)
    refine ⟨upd', hrun, hulen, ?_, ?_⟩
    · intro i hi
      rcases Nat.lt_or_ge i (j + 1) with hlt | hge
      · exact hle i (Nat.lt_succ_iff.mp hlt)
      · have hEq : i = j + 1 := Nat.le_antisymm hi hge
        subst hEq
        rw [hgt (j + 1) (Nat.lt_succ_self j), getD_set_self _ (by rw [hlen]; exact hj)]
    · intro i hi
      rw [hgt i (Nat.lt_of_succ_lt hi), getD_set_ne _ (by omega)]

/-! ### Raising the update array to the new level -/

theorem fillUpdate_spec (hd : Option Nat) :
    ∀ (lvls : List Nat) (upd : List (Option Nat)), (∀ i ∈ lvls, i < upd.length) →
      ∃ upd', fillUpdate hd lvls upd = some upd' ∧ upd'.length = upd.length ∧
        (∀ i ∈ lvls, upd'.getD i none = hd) ∧
        (∀ i, i ∉ lvls → upd'.getD i none = upd.getD i none) := by
  intro lvls
  induction lvls with
  | nil =>
    intro upd _
    exact ⟨upd, rfl, rfl, fun i hi => absurd hi (List.not_mem_nil i), fun i _ => rfl⟩
  | cons i rest ih =>
    intro upd hb
    have hi : i < upd.length := hb i (List.mem_cons_self i rest)
    simp only [fillUpdate, if_pos hi]
    obtain ⟨upd', hrun, hlen, hmem, hnotmem⟩ := ih (upd.set i hd)
      (fun k hk => by rw [List.length_set]; exact hb k (List.mem_cons_of_mem i hk))
    refine ⟨upd', hrun, by rw [hlen, List.length_set], ?_, ?_⟩
    · intro k hk
      rcases List.mem_cons.mp hk with rfl | hk
      · by_cases hkr : k ∈ rest
        · exact hmem k hkr
        · rw [hnotmem k hkr, getD_set_self _ hi]
      · exact hmem k hk
    · intro k hk
      have hk1 : k ≠ i := fun hEq => hk (hEq ▸ List.mem_cons_self i rest)
      have hk2 : k ∉ rest := fun hr => hk (List.mem_cons_of_mem i hr)
      rw [hnotmem k hk2, getD_set_ne _ hk1]

/-! ### Allocation: appending a node to the arena -/

theorem nodeAt_append_old {heap : Heap} (ext : Heap) {p : Nat} (hp : p < heap.length) :
    nodeAt (heap ++ ext) p = nodeAt heap p := by
  rw [nodeAt_eq_getElem?, List.getElem?_append, if_pos hp, ← nodeAt_eq_getElem?]

theorem nodeAt_append_new (heap : Heap) (nd : Node) :
    nodeAt (heap ++ [nd]) heap.length = nd := by
  rw [nodeAt_eq_getElem?, List.getElem?_concat_length]
  rfl

theorem valAt_append_old {heap : Heap} (ext : Heap) {p : Nat} (hp : p < heap.length) :
    valAt (heap ++ ext) p = valAt heap p := by
  unfold valAt
  rw [nodeAt_append_old ext hp]

theorem slotAt_append_old {heap : Heap} (ext : Heap) {i p : Nat} (hp : p < heap.length) :
    slotAt (heap ++ ext) i p = slotAt heap i p := by
  unfold slotAt
  rw [nodeAt_append_old ext hp]

theorem slotAt_new_node (heap : Heap) (v : Int) (lv i : Nat) :
    slotAt (heap ++ [Node.new v lv]) i heap.length = none := by
  unfold slotAt
  rw [nodeAt_append_new]
  show (List.replicate MAX_LEVEL (none : Option Nat)).getD i none = none
  rw [List.getD_eq_getElem?_getD, List.getElem?_replicate]
  by_cases hi : i < MAX_LEVEL
  · rw [if_pos hi]; rfl
  · rw [if_neg hi]; rfl

theorem wf_append {heap : Heap} (hw : WF heap) (v : Int) (lv : Nat) :
    WF (heap ++ [Node.new v lv]) := by
  intro nd hnd
  rcases List.mem_append.mp hnd with h | h
  · exact hw nd h
  · rcases List.mem_singleton.mp h with rfl
    exact List.length_replicate MAX_LEVEL none

theorem chain_append {heap : Heap} (ext : Heap) {i : Nat} {s : Option Nat} {l : List Nat}
    (hch : IsChain heap i s l) : IsChain (heap ++ ext) i s l := by
  induction hch with
  | nil => exact IsChain.nil
  | cons hp ht ih =>
    rename_i p l'
    refine IsChain.cons (by rw [List.length_append]; omega) ?_
    rwa [slotAt_append_old ext hp]

/-- Transporting a chain to another heap that agrees on all its slots. -/
theorem chain_transport {h1 h2 : Heap} {i : Nat} {s : Option Nat} {l : List Nat}
    (hch : IsChain h1 i s l)
    (hslot : ∀ p ∈ l, slotAt h2 i p = slotAt h1 i p)
    (hlen : ∀ p ∈ l, p < h2.length) : IsChain h2 i s l := by
  induction hch with
  | nil => exact IsChain.nil
  | cons hp ht ih =>
    rename_i p l'
    refine IsChain.cons (hlen p (List.mem_cons_self p l')) ?_
    rw [hslot p (List.mem_cons_self p l')]
    exact ih (fun q hq => hslot q (List.mem_cons_of_mem p hq))
      (fun q hq => hlen q (List.mem_cons_of_mem p hq))

/-- Splicing a new node right after `pred` inside a chain: the part of the
chain before `pred` is untouched, `pred` now points at the new node, and the
new node points at the old remainder. -/
theorem splice_chain {heap2 F : Heap} {i newPtr pred : Nat} {r : List Nat}
    (hFnew : slotAt F i pred = some newPtr)
    (hother : ∀ p, p ≠ newPtr → p ≠ pred → slotAt F i p = slotAt heap2 i p)
    (hnewchain : IsChain F i (slotAt F i newPtr) r)
    (hFlen : F.length = heap2.length) (hnpF : newPtr < F.length) :
    ∀ (t : List Nat) (q : Nat), IsChain heap2 i (slotAt heap2 i q) (t ++ r) →
      pred = t.getLastD q → (q :: t).Nodup → (∀ p ∈ q :: t, p ≠ newPtr) →
      IsChain F i (slotAt F i q) (t ++ newPtr :: r) := by
  intro t
  induction t with
  | nil =>
    intro q _ hpred _ _
    rw [List.nil_append]
    have hq : slotAt F i q = some newPtr := by
      rw [show q = pred from hpred.symm]
      exact hFnew
    rw [hq]
    exact IsChain.cons hnpF hnewchain
  | cons a t' ih =>
    intro q hch hpred hnd hnot
    obtain ⟨hsq, ha, ht⟩ := hch.slot_cons
    have hpred' : pred = t'.getLastD a := by rw [hpred, List.getLastD_cons]
    have hqpred : q ≠ pred := by
      intro hEq
      have : pred ∈ a :: t' := hpred' ▸ getLastD_mem t' a
      exact (List.nodup_cons.mp hnd).1 (hEq ▸ this)
    have hqnew : q ≠ newPtr := hnot q (List.mem_cons_self q _)
    rw [List.cons_append, hother q hqnew hqpred, hsq]
    refine IsChain.cons (by rw [hFlen]; exact ha) ?_
    exact ih a ht hpred' (List.nodup_cons.mp hnd).2
      (fun p hp => hnot p (List.mem_cons_of_mem q hp))

/-- Everything strictly beyond the walk's stopping point carries a value
strictly above `v` (when `v` itself is absent from the chain). -/
theorem dropWhile_gt {heap : Heap} {v : Int} :
    ∀ {l : List Nat}, l.Pairwise (fun a b => valAt heap a < valAt heap b) →
      v ∉ l.map (valAt heap) →
      ∀ b ∈ l.dropWhile (isBelow heap v), v < valAt heap b := by
  intro l
  induction l with
  | nil => intro _ _ b hb; simp at hb
  | cons a t ih =>
    intro hs hnot b hb
    by_cases ha : valAt heap a < v
    · rw [List.dropWhile_cons_of_pos (show isBelow heap v a = true from decide_eq_true ha)]
        at hb
      exact ih (List.Pairwise.of_cons hs)
        (fun hm => hnot (by rw [List.map_cons]; exact List.mem_cons_of_mem _ hm)) b hb
    · rw [List.dropWhile_cons_of_neg (by simpa [isBelow] using ha)] at hb
      have hva : v < valAt heap a := by
        rcases lt_or_eq_of_le (le_of_not_lt ha) with h | h
        · exact h
        · exact absurd (by rw [List.map_cons, h]; exact List.mem_cons_self _ _) hnot
      rcases List.mem_cons.mp hb with rfl | hb
      · exact hva
      · exact lt_trans hva ((List.pairwise_cons.mp hs).1 b hb)

/-! ### The invariant survives a non-duplicate insertion -/

theorem subset_le {L : Nat → List Nat} (hsub : ∀ i, i + 1 < MAX_LEVEL → L (i + 1) ⊆ L i)
    (i : Nat) : ∀ j, i ≤ j → j < MAX_LEVEL → L j ⊆ L i := by
  intro j
  induction j with
  | zero =>
    intro h0 _
    cases Nat.le_zero.mp h0
    exact fun x hx => hx
  | succ j ih =>
    intro hij hj
    rcases Nat.lt_or_ge i (j + 1) with hlt | hge
    · exact fun x hx => ih (Nat.lt_succ_iff.mp hlt) (Nat.lt_of_succ_lt hj) (hsub j hj hx)
    · have hEq : i = j + 1 := Nat.le_antisymm hij hge
      subst hEq
      exact fun x hx => hx

section Splice

variable {sl : SkipList} {L : Nat → List Nat} {vs : List Int} {v : Int} {n : Nat}

theorem walk_lt (g : GoodState sl L vs) {j : Nat} (hj : j < MAX_LEVEL) :
    walk sl.heap v 0 (L j) < sl.heap.length := by
  rcases walk_mem sl.heap v 0 (L j) with h | ⟨hm, -⟩
  · rw [h]; exact g.head_pos
  · exact (g.chain j hj).mem_lt _ hm

theorem prFun_lt (g : GoodState sl L vs) (hn : n < MAX_LEVEL) (j : Nat) :
    prFun sl L v n j < sl.heap.length := by
  unfold prFun
  by_cases hj : j ≤ n
  · rw [if_pos hj]
    exact walk_lt g (lt_of_le_of_lt hj hn)
  · rw [if_neg hj]
    exact g.head_pos

theorem prFun_eq {j : Nat} (hj : j ≤ n) :
    prFun sl L v n j = walk sl.heap v 0 (L j) := if_pos hj

theorem heap2_wf (g : GoodState sl L vs) : WF (sl.heap ++ [Node.new v (n + 1)]) :=
  wf_append g.wf v (n + 1)

theorem heap2_len : (sl.heap ++ [Node.new v (n + 1)]).length = sl.heap.length + 1 := by
  rw [List.length_append]
  rfl

theorem splicedHeap_len (g : GoodState sl L vs) (hn : n < MAX_LEVEL) :
    (splicedHeap sl L v n).length = sl.heap.length + 1 := by
  unfold splicedHeap
  rw [spliceRec_length, heap2_len]

theorem splicedHeap_wf (g : GoodState sl L vs) (hn : n < MAX_LEVEL) :
    WF (splicedHeap sl L v n) := by
  unfold splicedHeap
  exact spliceRec_wf (heap2_wf g) (by rw [heap2_len]; omega)
    (fun j => by rw [heap2_len]; exact Nat.lt_succ_of_lt (prFun_lt g hn j)) n

theorem splicedHeap_val (g : GoodState sl L vs) {q : Nat} (hq : q < sl.heap.length) :
    valAt (splicedHeap sl L v n) q = valAt sl.heap q := by
  unfold splicedHeap
  rw [spliceRec_valAt, valAt_append_old _ hq]

theorem splicedHeap_val_new (g : GoodState sl L vs) :
    valAt (splicedHeap sl L v n) sl.heap.length = v := by
  unfold splicedHeap
  rw [spliceRec_valAt]
  show valAt (sl.heap ++ [Node.new v (n + 1)]) sl.heap.length = v
  unfold valAt
  rw [nodeAt_append_new]
  rfl

theorem spliced_chain_low (g : GoodState sl L vs) (hn : n < MAX_LEVEL)
    {i : Nat} (hi : i ≤ n) (hi16 : i < MAX_LEVEL) :
    IsChain (splicedHeap sl L v n) i (slotAt (splicedHeap sl L v n) i 0)
      (splicedChains sl L v n i) := by
  have hnp2 : sl.heap.length < (sl.heap ++ [Node.new v (n + 1)]).length := by
    rw [heap2_len]; omega
  have hpr2 : ∀ j, prFun sl L v n j < (sl.heap ++ [Node.new v (n + 1)]).length :=
    fun j => by rw [heap2_len]; exact Nat.lt_succ_of_lt (prFun_lt g hn j)
  have hne2 : ∀ j, prFun sl L v n j ≠ sl.heap.length :=
    fun j => Nat.ne_of_lt (prFun_lt g hn j)
  have hmemTW : ∀ p ∈ (L i).takeWhile (isBelow sl.heap v), p ∈ L i :=
    fun p hp => (List.takeWhile_sublist _).mem hp
  have hmemR : ∀ p ∈ (L i).dropWhile (isBelow sl.heap v), p ∈ L i :=
    fun p hp => (List.dropWhile_sublist _).mem hp
  have hnodLi : (L i).Nodup := sorted_nodup (g.sorted i hi16)
  have hwmem : walk sl.heap v 0 (L i) = 0 ∨
      walk sl.heap v 0 (L i) ∈ (L i).takeWhile (isBelow sl.heap v) := by
    rw [walk_getLastD]
    exact List.mem_cons.mp (getLastD_mem _ 0)
  have hRne : ∀ p ∈ (L i).dropWhile (isBelow sl.heap v), p ≠ walk sl.heap v 0 (L i) := by
    intro p hp hEq
    rw [hEq] at hp
    rcases hwmem with hw0 | hwTW
    · rw [hw0] at hp
      exact g.no_head i hi16 (hmemR 0 hp)
    · have hnodapp : ((L i).takeWhile (isBelow sl.heap v) ++
          (L i).dropWhile (isBelow sl.heap v)).Nodup := by
        rw [List.takeWhile_append_dropWhile (isBelow sl.heap v) (L i)]
        exact hnodLi
      have hdisj := List.disjoint_of_nodup_append hnodapp
      exact hdisj hwTW hp
  have hFnew : slotAt (splicedHeap sl L v n) i (walk sl.heap v 0 (L i)) =
      some sl.heap.length := by
    unfold splicedHeap
    rw [← prFun_eq hi]
    exact spliceRec_slot_pr (heap2_wf g) hnp2 hpr2 n hn i hi
  have hFnewslot : slotAt (splicedHeap sl L v n) i sl.heap.length =
      slotAt sl.heap i (walk sl.heap v 0 (L i)) := by
    unfold splicedHeap
    rw [spliceRec_slot_newPtr (heap2_wf g) hnp2 hpr2 hne2 n hn i hi, prFun_eq hi,
      slotAt_append_old _ (walk_lt g hi16)]
  have hFother : ∀ p, p ≠ sl.heap.length → p ≠ walk sl.heap v 0 (L i) →
      slotAt (splicedHeap sl L v n) i p = slotAt (sl.heap ++ [Node.new v (n + 1)]) i p := by
    intro p h1 h2
    unfold splicedHeap
    exact spliceRec_slot_other _ _ _ n i h1 (by rw [prFun_eq hi]; exact h2)
  have hFlen : (splicedHeap sl L v n).length = (sl.heap ++ [Node.new v (n + 1)]).length := by
    unfold splicedHeap
    rw [spliceRec_length]
  have hnewchain : IsChain (splicedHeap sl L v n) i
      (slotAt (splicedHeap sl L v n) i sl.heap.length)
      ((L i).dropWhile (isBelow sl.heap v)) := by
    rw [hFnewslot]
    refine chain_transport (chain_split_walk (g.chain i hi16)) ?_ ?_
    · intro p hp
      have hpL : p ∈ L i := hmemR p hp
      have hplt : p < sl.heap.length := (g.chain i hi16).mem_lt p hpL
      rw [hFother p (Nat.ne_of_lt hplt) (hRne p hp), slotAt_append_old _ hplt]
    · intro p hp
      rw [hFlen, heap2_len]
      exact Nat.lt_succ_of_lt ((g.chain i hi16).mem_lt p (hmemR p hp))
  have hchain2 : IsChain (sl.heap ++ [Node.new v (n + 1)]) i
      (slotAt (sl.heap ++ [Node.new v (n + 1)]) i 0)
      ((L i).takeWhile (isBelow sl.heap v) ++ (L i).dropWhile (isBelow sl.heap v)) := by
    rw [slotAt_append_old _ g.head_pos, List.takeWhile_append_dropWhile]
    exact chain_append _ (g.chain i hi16)
  have hmain := splice_chain hFnew hFother hnewchain hFlen
    (by rw [hFlen, heap2_len]; omega)
    ((L i).takeWhile (isBelow sl.heap v)) 0 hchain2
    (walk_getLastD sl.heap v 0 (L i))
    (List.nodup_cons.mpr ⟨fun hm => g.no_head i hi16 (hmemTW 0 hm),
      hnodLi.sublist (List.takeWhile_sublist _)⟩)
    (by
      intro p hp
      rcases List.mem_cons.mp hp with rfl | hp
      · exact Nat.ne_of_lt g.head_pos
      · exact Nat.ne_of_lt ((g.chain i hi16).mem_lt p (hmemTW p hp)))
  unfold splicedChains
  rw [if_pos hi]
  exact hmain

theorem spliced_chain_high (g : GoodState sl L vs) (hn : n < MAX_LEVEL)
    {i : Nat} (hi : n < i) (hi16 : i < MAX_LEVEL) :
    IsChain (splicedHeap sl L v n) i (slotAt (splicedHeap sl L v n) i 0)
      (splicedChains sl L v n i) := by
  have hhigh : ∀ q, slotAt (splicedHeap sl L v n) i q =
      slotAt (sl.heap ++ [Node.new v (n + 1)]) i q := by
    intro q
    unfold splicedHeap
    exact spliceRec_slot_high _ _ _ n i q hi
  have hchain2 : IsChain (sl.heap ++ [Node.new v (n + 1)]) i
      (slotAt (sl.heap ++ [Node.new v (n + 1)]) i 0) (L i) := by
    rw [slotAt_append_old _ g.head_pos]
    exact chain_append _ (g.chain i hi16)
  unfold splicedChains
  rw [if_neg (by omega), hhigh 0]
  refine chain_transport hchain2 (fun p hp => hhigh p) ?_
  intro p hp
  unfold splicedHeap
  rw [spliceRec_length, heap2_len]
  exact Nat.lt_succ_of_lt ((g.chain i hi16).mem_lt p hp)

theorem map_congr_on {l : List Nat} {f f' : Nat → Int} (h : ∀ x ∈ l, f x = f' x) :
    l.map f = l.map f' := by
  induction l with
  | nil => rfl
  | cons a t ih =>
    rw [List.map_cons, List.map_cons, h a (List.mem_cons_self a t),
      ih fun x hx => h x (List.mem_cons_of_mem a hx)]

theorem v_notin_Li (g : GoodState sl L vs) (hv : v ∉ (L 0).map (valAt sl.heap))
    {i : Nat} (hi16 : i < MAX_LEVEL) : v ∉ (L i).map (valAt sl.heap) := by
  intro hm
  obtain ⟨p, hp, hval⟩ := List.mem_map.mp hm
  exact hv (List.mem_map.mpr ⟨p, subset_le g.subset 0 i (Nat.zero_le i) hi16 hp, hval⟩)

theorem spliced_val_mem (g : GoodState sl L vs) (hn : n < MAX_LEVEL)
    {i : Nat} (hi16 : i < MAX_LEVEL) :
    ∀ p ∈ L i, valAt (splicedHeap sl L v n) p = valAt sl.heap p :=
  fun p hp => splicedHeap_val g ((g.chain i hi16).mem_lt p hp)

theorem spliced_sorted (g : GoodState sl L vs)
    (hv : v ∉ (L 0).map (valAt sl.heap)) (hn : n < MAX_LEVEL) :
    ∀ i < MAX_LEVEL, (splicedChains sl L v n i).Pairwise
      (fun a b => valAt (splicedHeap sl L v n) a < valAt (splicedHeap sl L v n) b) := by
  intro i hi16
  have hvm : ∀ p ∈ L i, valAt (splicedHeap sl L v n) p = valAt sl.heap p :=
    spliced_val_mem g hn hi16
  have hmemTW : ∀ p ∈ (L i).takeWhile (isBelow sl.heap v), p ∈ L i :=
    fun p hp => (List.takeWhile_sublist _).mem hp
  have hmemR : ∀ p ∈ (L i).dropWhile (isBelow sl.heap v), p ∈ L i :=
    fun p hp => (List.dropWhile_sublist _).mem hp
  unfold splicedChains
  by_cases hi : i ≤ n
  · rw [if_pos hi]
    have hRgt : ∀ b ∈ (L i).dropWhile (isBelow sl.heap v), v < valAt sl.heap b :=
      dropWhile_gt (g.sorted i hi16) (v_notin_Li g hv hi16)
    have hTWlt : ∀ a ∈ (L i).takeWhile (isBelow sl.heap v), valAt sl.heap a < v := by
      intro a ha
      have h1 : isBelow sl.heap v a = true := List.mem_takeWhile_imp ha
      rw [isBelow, decide_eq_true_eq] at h1
      exact h1
    refine List.pairwise_append.mpr ⟨?_, ?_, ?_⟩
    · refine List.Pairwise.imp_of_mem ?_
        ((g.sorted i hi16).sublist (List.takeWhile_sublist _))
      intro a b ha hb hab
      rw [hvm a (hmemTW a ha), hvm b (hmemTW b hb)]
      exact hab
    · refine List.pairwise_cons.mpr ⟨?_, ?_⟩
      · intro b hb
        rw [splicedHeap_val_new g, hvm b (hmemR b hb)]
        exact hRgt b hb
      · refine List.Pairwise.imp_of_mem ?_
          ((g.sorted i hi16).sublist (List.dropWhile_sublist _))
        intro a b ha hb hab
        rw [hvm a (hmemR a ha), hvm b (hmemR b hb)]
        exact hab
    · intro a ha b hb
      rcases List.mem_cons.mp hb with rfl | hb
      · rw [hvm a (hmemTW a ha), splicedHeap_val_new g]
        exact hTWlt a ha
      · rw [hvm a (hmemTW a ha), hvm b (hmemR b hb)]
        exact lt_trans (hTWlt a ha) (hRgt b hb)
  · rw [if_neg hi]
    refine List.Pairwise.imp_of_mem ?_ (g.sorted i hi16)
    intro a b ha hb hab
    rw [hvm a ha, hvm b hb]
    exact hab

theorem spliced_subset (g : GoodState sl L vs) :
    ∀ i, i + 1 < MAX_LEVEL →
      splicedChains sl L v n (i + 1) ⊆ splicedChains sl L v n i := by
  intro i hi16 x hx
  have hLup : ∀ j, j ≤ n → x ∈ L j →
      x ∈ splicedChains sl L v n j := by
    intro j hj hxj
    unfold splicedChains
    rw [if_pos hj]
    have : x ∈ (L j).takeWhile (isBelow sl.heap v) ++
        (L j).dropWhile (isBelow sl.heap v) := by
      rw [List.takeWhile_append_dropWhile (isBelow sl.heap v) (L j)]
      exact hxj
    rcases List.mem_append.mp this with h | h
    · exact List.mem_append.mpr (Or.inl h)
    · exact List.mem_append.mpr (Or.inr (List.mem_cons_of_mem _ h))
  by_cases hs1 : i + 1 ≤ n
  · rw [show splicedChains sl L v n (i + 1) = (L (i + 1)).takeWhile (isBelow sl.heap v) ++
        sl.heap.length :: (L (i + 1)).dropWhile (isBelow sl.heap v) from if_pos hs1] at hx
    rcases List.mem_append.mp hx with h | h
    · exact hLup i (by omega) (g.subset i hi16 ((List.takeWhile_sublist _).mem h))
    · rcases List.mem_cons.mp h with rfl | h
      · unfold splicedChains
        rw [if_pos (by omega)]
        exact List.mem_append.mpr (Or.inr (List.mem_cons_self _ _))
      · exact hLup i (by omega) (g.subset i hi16 ((List.dropWhile_sublist _).mem h))
  · rw [show splicedChains sl L v n (i + 1) = L (i + 1) from if_neg hs1] at hx
    have hxL : x ∈ L i := g.subset i hi16 hx
    by_cases hs2 : i ≤ n
    · exact hLup i hs2 hxL
    · rw [show splicedChains sl L v n i = L i from if_neg hs2]
      exact hxL

theorem spliced_no_head (g : GoodState sl L vs) :
    ∀ i < MAX_LEVEL, 0 ∉ splicedChains sl L v n i := by
  intro i hi16 hmem
  unfold splicedChains at hmem
  by_cases hi : i ≤ n
  · rw [if_pos hi] at hmem
    rcases List.mem_append.mp hmem with h | h
    · exact g.no_head i hi16 ((List.takeWhile_sublist _).mem h)
    · rcases List.mem_cons.mp h with h0 | h
      · exact absurd h0.symm (Nat.ne_of_lt g.head_pos).symm
      · exact g.no_head i hi16 ((List.dropWhile_sublist _).mem h)
  · rw [if_neg hi] at hmem
    exact g.no_head i hi16 hmem

theorem spliced_vals (g : GoodState sl L vs)
    (hv : v ∉ (L 0).map (valAt sl.heap)) (hn : n < MAX_LEVEL) :
    ∀ x : Int, x ∈ (splicedChains sl L v n 0).map (valAt (splicedHeap sl L v n)) ↔
      x ∈ v :: vs := by
  intro x
  have hvm : ∀ p ∈ L 0, valAt (splicedHeap sl L v n) p = valAt sl.heap p :=
    spliced_val_mem g hn (show 0 < MAX_LEVEL by decide)
  have hmapchain : (splicedChains sl L v n 0).map (valAt (splicedHeap sl L v n)) =
      ((L 0).takeWhile (isBelow sl.heap v)).map (valAt sl.heap) ++
      v :: ((L 0).dropWhile (isBelow sl.heap v)).map (valAt sl.heap) := by
    unfold splicedChains
    rw [if_pos (Nat.zero_le n), List.map_append, List.map_cons, splicedHeap_val_new g,
      map_congr_on (fun p hp => hvm p ((List.takeWhile_sublist _).mem hp)),
      map_congr_on (fun p hp => hvm p ((List.dropWhile_sublist _).mem hp))]
  have hmapL : (L 0).map (valAt sl.heap) =
      ((L 0).takeWhile (isBelow sl.heap v)).map (valAt sl.heap) ++
      ((L 0).dropWhile (isBelow sl.heap v)).map (valAt sl.heap) := by
    rw [← List.map_append, List.takeWhile_append_dropWhile]
  have hg := g.vals x
  rw [hmapL, List.mem_append] at hg
  rw [hmapchain, List.mem_append, List.mem_cons, List.mem_cons, ← hg]
  constructor
  · rintro (h | rfl | h)
    · exact Or.inr (Or.inl h)
    · exact Or.inl rfl
    · exact Or.inr (Or.inr h)
  · rintro (rfl | h | h)
    · exact Or.inr (Or.inl rfl)
    · exact Or.inl h
    · exact Or.inr (Or.inr h)

theorem spliced_good (g : GoodState sl L vs)
    (hv : v ∉ (L 0).map (valAt sl.heap)) (hn : n < MAX_LEVEL) :
    GoodState (splicedState sl L v n) (splicedChains sl L v n) (v :: vs) := by
  refine ⟨g.head_eq, ?_, ?_, ?_, ?_, ?_, ?_, ?_, ?_, ?_, ?_⟩
  · show 0 < (splicedHeap sl L v n).length
    rw [splicedHeap_len g hn]
    omega
  · show valAt (splicedHeap sl L v n) 0 = -1
    rw [splicedHeap_val g g.head_pos]
    exact g.head_val
  · show (if sl.level < n then n else sl.level) < MAX_LEVEL
    by_cases h : sl.level < n
    · rw [if_pos h]; exact hn
    · rw [if_neg h]; exact g.level_lt
  · exact splicedHeap_wf g hn
  · intro i hi16
    by_cases hi : i ≤ n
    · exact spliced_chain_low g hn hi hi16
    · exact spliced_chain_high g hn (Nat.lt_of_not_le hi) hi16
  · exact spliced_sorted g hv hn
  · exact spliced_subset g
  · intro i hlev hi16
    have hlev' : (if sl.level < n then n else sl.level) < i := hlev
    show splicedChains sl L v n i = []
    unfold splicedChains
    have h1 : ¬ i ≤ n := by
      by_cases h : sl.level < n
      · rw [if_pos h] at hlev'; omega
      · rw [if_neg h] at hlev'; omega
    rw [if_neg h1]
    refine g.empty_above i ?_ hi16
    by_cases h : sl.level < n
    · rw [if_pos h] at hlev'; omega
    · rw [if_neg h] at hlev'; omega
  · exact spliced_no_head g
  · exact spliced_vals g hv hn

theorem getD_replicate_none (k i : Nat) :
    (List.replicate k (none : Option Nat)).getD i none = none := by
  rw [List.getD_eq_getElem?_getD, List.getElem?_replicate]
  by_cases h : i < k
  · rw [if_pos h]
    rfl
  · rw [if_neg h]
    rfl

theorem mem_range'_iff (st n i : Nat) : i ∈ List.range' st n ↔ st ≤ i ∧ i < st + n := by
  rw [List.mem_range']
  constructor
  · rintro ⟨k, hk, rfl⟩
    omega
  · rintro ⟨h1, h2⟩
    exact ⟨i - st, by omega, by omega⟩

theorem insertRest_spec (g : GoodState sl L vs)
    (hn : n < MAX_LEVEL) {upd' : List (Option Nat)}
    (hulen : upd'.length = MAX_LEVEL)
    (hle : ∀ i, i ≤ sl.level → upd'.getD i none = some (walk sl.heap v 0 (L i)))
    (hgt : ∀ i, sl.level < i → upd'.getD i none =
      (List.replicate MAX_LEVEL (none : Option Nat)).getD i none) :
    insertRest sl v n upd' = some (splicedState sl L v n) := by
  have hgt' : ∀ i, sl.level < i → upd'.getD i none = none := by
    intro i hi
    rw [hgt i hi, getD_replicate_none]
  have hmain : ∃ upd2, (if sl.level < n then
        fillUpdate sl.head (List.range' (sl.level + 1) (n - sl.level)) upd'
      else some upd') = some upd2 ∧ upd2.length = MAX_LEVEL ∧
      ∀ i, i ≤ n → upd2.getD i none = some (prFun sl L v n i) := by
    by_cases hlt : sl.level < n
    · obtain ⟨upd2, hrun, hlen2, hmem2, hnot2⟩ :=
        fillUpdate_spec sl.head (List.range' (sl.level + 1) (n - sl.level)) upd'
          (by
            intro i hi
            rw [mem_range'_iff] at hi
            rw [hulen]
            omega)
      refine ⟨upd2, by rw [if_pos hlt]; exact hrun, by rw [hlen2]; exact hulen, ?_⟩
      intro i hi
      rcases Nat.lt_or_ge sl.level i with hcase | hcase
      · have hiR : i ∈ List.range' (sl.level + 1) (n - sl.level) := by
          rw [mem_range'_iff]
          omega
        rw [hmem2 i hiR, g.head_eq]
        unfold prFun
        rw [if_pos hi, g.empty_above i hcase (lt_of_le_of_lt hi hn)]
        rfl
      · have hiR : i ∉ List.range' (sl.level + 1) (n - sl.level) := by
          rw [mem_range'_iff]
          omega
        rw [hnot2 i hiR, hle i hcase, prFun_eq hi]
    · refine ⟨upd', by rw [if_neg hlt], hulen, ?_⟩
      intro i hi
      rw [hle i (by omega), prFun_eq hi]
  obtain ⟨upd2, hfill, hlen2, hpred2⟩ := hmain
  have hlink : linkLoop sl.heap.length upd2 (List.range (n + 1))
      (sl.heap ++ [Node.new v (n + 1)]) = some (splicedHeap sl L v n) := by
    rw [linkLoop_spec (List.range (n + 1)) (sl.heap ++ [Node.new v (n + 1)])
      (heap2_wf g) (by rw [heap2_len]; omega)
      (fun i hi => by
        have := List.mem_range.mp hi
        omega)
      (fun i hi => by
        rw [getElem?_eq_some_getD upd2 none i
          (by rw [hlen2]; have := List.mem_range.mp hi; omega)]
        rw [hpred2 i (by have := List.mem_range.mp hi; omega)]
      )
      (fun i hi => by rw [heap2_len]; exact Nat.lt_succ_of_lt (prFun_lt g hn i))]
    rw [foldl_linkStep_range]
    rfl
  simp only [insertRest, hfill, hlink]
  unfold splicedState
  rfl

theorem insertWith_dup (g : GoodState sl L vs)
    (hv : v ∈ (L 0).map (valAt sl.heap)) (n : Nat) :
    sl.insertWith v n = some sl := by
  obtain ⟨upd', hrun, hulen, hle, hgt⟩ :=
    insertLoop_spec g.wf g.head_pos g.chain g.sorted g.subset sl.level g.level_lt 0
      (Or.inl rfl) g.head_pos (List.replicate MAX_LEVEL none)
      (List.length_replicate MAX_LEVEL none)
  have h0q : upd'[0]? = some (some (walk sl.heap v 0 (L 0))) := by
    rw [getElem?_eq_some_getD upd' none 0 (by rw [hulen]; decide), hle 0 (Nat.zero_le _)]
  have hp0 : walk sl.heap v 0 (L 0) < sl.heap.length := walk_lt g (by decide)
  simp only [SkipList.insertWith, g.head_eq, hrun, h0q, heap_getElem? sl.heap _ hp0,
    next_getElem? sl.heap _ 0 g.wf hp0 (by decide)]
  rcases walk_succ 0 (g.chain 0 (by decide)) (g.sorted 0 (by decide))
    with ⟨hslot, hnot⟩ | ⟨p', hslot, hp', hiff⟩
  · exact absurd hv hnot
  · simp only [hslot, heap_getElem? sl.heap p' hp']
    rw [if_pos (show (nodeAt sl.heap p').value = v from hiff.mpr hv)]

theorem insertWith_new (g : GoodState sl L vs)
    (hv : v ∉ (L 0).map (valAt sl.heap)) (hn : n < MAX_LEVEL) :
    sl.insertWith v n = some (splicedState sl L v n) := by
  obtain ⟨upd', hrun, hulen, hle, hgt⟩ :=
    insertLoop_spec g.wf g.head_pos g.chain g.sorted g.subset sl.level g.level_lt 0
      (Or.inl rfl) g.head_pos (List.replicate MAX_LEVEL none)
      (List.length_replicate MAX_LEVEL none)
  have h0q : upd'[0]? = some (some (walk sl.heap v 0 (L 0))) := by
    rw [getElem?_eq_some_getD upd' none 0 (by rw [hulen]; decide), hle 0 (Nat.zero_le _)]
  have hp0 : walk sl.heap v 0 (L 0) < sl.heap.length := walk_lt g (by decide)
  simp only [SkipList.insertWith, g.head_eq, hrun, h0q, heap_getElem? sl.heap _ hp0,
    next_getElem? sl.heap _ 0 g.wf hp0 (by decide)]
  rcases walk_succ (v := v) 0 (g.chain 0 (by decide)) (g.sorted 0 (by decide))
    with ⟨hslot, hnot⟩ | ⟨p', hslot, hp', hiff⟩
  · simp only [hslot]
    exact insertRest_spec g hn hulen hle hgt
  · simp only [hslot, heap_getElem? sl.heap p' hp']
    rw [if_neg (show ¬ (nodeAt sl.heap p').value = v from fun hEq => hv (hiff.mp hEq))]
    exact insertRest_spec g hn hulen hle hgt

end Splice

/-! ### The invariant holds initially and is preserved -/

theorem new_good : GoodState SkipList.new (fun _ => []) [] := by
  refine ⟨rfl, by decide, rfl, by decide, ?_, ?_, ?_, ?_, ?_, ?_, ?_⟩
  · intro nd hnd
    rcases List.mem_singleton.mp hnd with rfl
    exact List.length_replicate MAX_LEVEL none
  · intro i _
    have : slotAt SkipList.new.heap i 0 = none := by
      show (nodeAt SkipList.new.heap 0).next.getD i none = none
      exact getD_replicate_none MAX_LEVEL i
    rw [this]
    exact IsChain.nil
  · intro i _
    exact List.Pairwise.nil
  · intro i _
    exact fun x hx => hx
  · intro i _ _
    rfl
  · intro i _
    exact List.not_mem_nil 0
  · intro x
    simp

theorem randomLevelGo_le (s : Nat → Bool) :
    ∀ fuel lvl, lvl ≤ MAX_LEVEL - 1 → randomLevelGo s fuel lvl ≤ MAX_LEVEL - 1 := by
  intro fuel
  induction fuel with
  | zero => intro lvl h; exact h
  | succ f ih =>
    intro lvl h
    unfold randomLevelGo
    by_cases hc : s lvl = true ∧ lvl < MAX_LEVEL - 1
    · rw [if_pos hc]
      exact ih (lvl + 1) hc.2
    · rw [if_neg hc]
      exact h

theorem random_level_lt (s : Nat → Bool) : random_level s < MAX_LEVEL := by
  have h1 := randomLevelGo_le s MAX_LEVEL 0 (by decide)
  have h2 : MAX_LEVEL = 16 := rfl
  unfold random_level
  omega

theorem reachable_good {sl : SkipList} {vs : List Int} (h : Reachable sl vs) :
    ∃ L, GoodState sl L vs := by
  induction h with
  | base => exact ⟨fun _ => [], new_good⟩
  | step hr hins ih =>
    rename_i sl0 vs0 v s sl'
    obtain ⟨L, g⟩ := ih
    by_cases hv : v ∈ (L 0).map (valAt sl0.heap)
    · have hx := insertWith_dup g hv (random_level s)
      unfold SkipList.insert at hins
      rw [hx] at hins
      cases hins
      refine ⟨L, g.head_eq, g.head_pos, g.head_val, g.level_lt, g.wf, g.chain, g.sorted,
        g.subset, g.empty_above, g.no_head, ?_⟩
      intro x
      refine (g.vals x).trans ?_
      constructor
      · exact fun hx0 => List.mem_cons_of_mem v hx0
      · intro hx0
        rcases List.mem_cons.mp hx0 with rfl | hx0
        · exact (g.vals x).mp hv
        · exact hx0
    · have hx := insertWith_new g hv (random_level_lt s)
      unfold SkipList.insert at hins
      rw [hx] at hins
      cases hins
      exact ⟨splicedChains sl0 L v (random_level s), spliced_good g hv (random_level_lt s)⟩

/-! ### Bridges between the invariant and the executable traversals -/

theorem levelPtrs_eq {sl : SkipList} {L : Nat → List Nat} {vs : List Int}
    (g : GoodState sl L vs) {i : Nat} (hi16 : i < MAX_LEVEL) :
    levelPtrs sl i = L i := by
  unfold levelPtrs
  exact chainList_spec (g.chain i hi16) sl.heap.length
    (chain_length_le (g.chain i hi16) (g.sorted i hi16))

theorem levelTraversal_eq {sl : SkipList} {L : Nat → List Nat} {vs : List Int}
    (g : GoodState sl L vs) {i : Nat} (hi16 : i < MAX_LEVEL) :
    levelTraversal sl i = (L i).map (valAt sl.heap) := by
  unfold levelTraversal
  rw [levelPtrs_eq g hi16]

theorem insert_total {sl : SkipList} {L : Nat → List Nat} {vs : List Int}
    (g : GoodState sl L vs) (v : Int) (s : Nat → Bool) :
    ∃ sl', sl.insert v s = some sl' := by
  by_cases hv : v ∈ (L 0).map (valAt sl.heap)
  · exact ⟨sl, by unfold SkipList.insert; exact insertWith_dup g hv _⟩
  · exact ⟨splicedState sl L v (random_level s),
      by unfold SkipList.insert; exact insertWith_new g hv (random_level_lt s)⟩

theorem demo_reachable : ∀ l : List Int, Reachable (demo l) l := by
  intro l
  induction l with
  | nil => exact Reachable.base
  | cons v t ih =>
    obtain ⟨L, g⟩ := reachable_good ih
    obtain ⟨sl', hins⟩ := insert_total g v sFalse
    have hEq : demo (v :: t) = sl' := by
      show demoInsert (demo t) v = sl'
      unfold demoInsert
      rw [hins]
      rfl
    rw [hEq]
    exact Reachable.step ih hins

theorem sorted_mem_unique {l1 l2 : List Int}
    (h1 : l1.Pairwise (· < ·)) (h2 : l2.Pairwise (· < ·))
    (hm : ∀ x, x ∈ l1 ↔ x ∈ l2) : l1 = l2 := by
  have nd1 : l1.Nodup := h1.imp ne_of_lt
  have nd2 : l2.Nodup := h2.imp ne_of_lt
  refine List.eq_of_perm_of_sorted
    (List.perm_of_nodup_nodup_toFinset_eq nd1 nd2 ?_) h1 h2
  ext x
  rw [List.mem_toFinset, List.mem_toFinset]
  exact hm x

/-! ### The claims -/

/-- Claim C1: for every sequence of inserts from `new()` and for every outcome
of the random level generator, `search v` returns true immediately after
`insert v`, and `search` returns false for every value never inserted. -/
theorem C1_membership_correctness :
    ∀ sl vs, Reachable sl vs →
      (∀ (v : Int) (s : Nat → Bool), ∃ sl', sl.insert v s = some sl' ∧
        sl'.search v = some true) ∧
      (∀ v : Int, v ∉ vs → sl.search v = some false) := by
  intro sl vs hr
  obtain ⟨L, g⟩ := reachable_good hr
  constructor
  · intro v s
    obtain ⟨sl', hins⟩ := insert_total g v s
    obtain ⟨L', g'⟩ := reachable_good (Reachable.step hr hins)
    refine ⟨sl', hins, ?_⟩
    rw [search_spec g' v, decide_eq_true (List.mem_cons_self v vs)]
  · intro v hv
    rw [search_spec g v, decide_eq_false hv]

/-- Witness for C1 at a concrete reachable state. -/
theorem C1_witness : SkipList.new.search 7 = some false :=
  (C1_membership_correctness SkipList.new [] Reachable.base).2 7 (by decide)

/-- Claim C2: after any insert sequence the chain followed via `forward[i]`
from the head is strictly increasing (hence duplicate-free), for every level
`i ≤ level`. -/
theorem C2_ordering_invariant :
    ∀ sl vs, Reachable sl vs → ∀ i, i ≤ sl.level →
      List.Pairwise (· < ·) (levelTraversal sl i) := by
  intro sl vs hr i hi
  obtain ⟨L, g⟩ := reachable_good hr
  have hi16 : i < MAX_LEVEL := lt_of_le_of_lt hi g.level_lt
  rw [levelTraversal_eq g hi16, List.pairwise_map]
  exact g.sorted i hi16

/-- Witness for C2 at a concrete reachable state. -/
theorem C2_witness :
    List.Pairwise (· < ·) (levelTraversal (demo [4, 1, 11, 2, 9, 6, 3]) 0) :=
  C2_ordering_invariant _ _ (demo_reachable [4, 1, 11, 2, 9, 6, 3]) 0 (Nat.zero_le _)

/-- Claim C3: every node reachable at a level `j` is also reachable at every
lower level `i` (in particular at level 0). -/
theorem C3_level_subset :
    ∀ sl vs, Reachable sl vs → ∀ i j, i ≤ j → j < MAX_LEVEL →
      ∀ p, p ∈ levelPtrs sl j → p ∈ levelPtrs sl i := by
  intro sl vs hr i j hij hj p hp
  obtain ⟨L, g⟩ := reachable_good hr
  rw [levelPtrs_eq g hj] at hp
  rw [levelPtrs_eq g (lt_of_le_of_lt hij hj)]
  exact subset_le g.subset i j hij hj hp

/-- Witness for C3: a node linked at level 1 is also on the level-0 chain. -/
theorem C3_witness : 1 ∈ levelPtrs demoTall 1 ∧ 1 ∈ levelPtrs demoTall 0 :=
  ⟨by decide, C3_level_subset demoTall [5]
    (Reachable.step Reachable.base
      (show SkipList.new.insert 5 sTrue = some demoTall by decide))
    0 1 (by decide) (by decide) 1 (by decide)⟩

/-- Claim C4: inserting an already-present value is an exact no-op (the whole
state, level counter, nodes and links included, is returned unchanged), and
hence two consecutive identical inserts equal a single one. -/
theorem C4_duplicate_noop :
    ∀ sl vs, Reachable sl vs →
      (∀ v : Int, v ∈ vs → ∀ s : Nat → Bool, sl.insert v s = some sl) ∧
      (∀ (v : Int) (s s' : Nat → Bool) (sl' : SkipList), sl.insert v s = some sl' →
        sl'.insert v s' = some sl') := by
  have hmain : ∀ sl1 vs1, Reachable sl1 vs1 → ∀ v : Int, v ∈ vs1 → ∀ s : Nat → Bool,
      sl1.insert v s = some sl1 := by
    intro sl1 vs1 hr1 v hv s
    obtain ⟨L, g⟩ := reachable_good hr1
    unfold SkipList.insert
    exact insertWith_dup g ((g.vals v).mpr hv) _
  intro sl vs hr
  refine ⟨hmain sl vs hr, ?_⟩
  intro v s s' sl' hins
  exact hmain sl' (v :: vs) (Reachable.step hr hins) v (List.mem_cons_self v vs) s'

/-- Witness for C4 at a concrete reachable state. -/
theorem C4_witness : (demo [3]).insert 3 sFalse = some (demo [3]) :=
  (C4_duplicate_noop _ _ (demo_reachable [3])).1 3 (by decide) sFalse

/-- Claim C5: `random_level` returns a value in `[0, MAX_LEVEL - 1]` for every
stream of random draws, and consequently `insert` never indexes a forward
array out of bounds (the model returns `none` on any out-of-bounds index). -/
theorem C5_random_level_range :
    (∀ s : Nat → Bool, random_level s < MAX_LEVEL) ∧
    (∀ sl vs, Reachable sl vs → ∀ (v : Int) (s : Nat → Bool),
      (sl.insert v s).isSome = true) := by
  constructor
  · exact random_level_lt
  · intro sl vs hr v s
    obtain ⟨L, g⟩ := reachable_good hr
    obtain ⟨sl', hins⟩ := insert_total g v s
    rw [hins]
    rfl

/-- Witness for C5 at a concrete stream and state. -/
theorem C5_witness :
    random_level sTrue < MAX_LEVEL ∧ (SkipList.new.insert 3 sTrue).isSome = true :=
  ⟨C5_random_level_range.1 sTrue,
    C5_random_level_range.2 SkipList.new [] Reachable.base 3 sTrue⟩

/-- Claim C6: after inserting 3, 6, 9, 2, 11, 1, 4 (in that order, under any
outcomes of the level generator), the four driver searches answer
true/false/true/false and the level-0 traversal is exactly
`[1, 2, 3, 4, 6, 9, 11]`. -/
theorem C6_demo_scenario :
    ∀ sl, Reachable sl [4, 1, 11, 2, 9, 6, 3] →
      sl.search 4 = some true ∧ sl.search 5 = some false ∧
      sl.search 11 = some true ∧ sl.search 0 = some false ∧
      levelTraversal sl 0 = [1, 2, 3, 4, 6, 9, 11] := by
  intro sl hr
  obtain ⟨L, g⟩ := reachable_good hr
  refine ⟨?_, ?_, ?_, ?_, ?_⟩
  · rw [search_spec g]
    rfl
  · rw [search_spec g]
    rfl
  · rw [search_spec g]
    rfl
  · rw [search_spec g]
    rfl
  · rw [levelTraversal_eq g (by decide)]
    refine sorted_mem_unique ?_ (by decide) ?_
    · rw [List.pairwise_map]
      exact g.sorted 0 (by decide)
    · intro x
      refine (g.vals x).trans ?_
      constructor <;> intro h <;> (simp only [List.mem_cons, List.not_mem_nil, or_false] at h ⊢) <;> omega

/-- Witness for C6 at a concrete run of the driver scenario. -/
theorem C6_witness :
    (demo [4, 1, 11, 2, 9, 6, 3]).search 4 = some true ∧
    (demo [4, 1, 11, 2, 9, 6, 3]).search 5 = some false ∧
    (demo [4, 1, 11, 2, 9, 6, 3]).search 11 = some true ∧
    (demo [4, 1, 11, 2, 9, 6, 3]).search 0 = some false ∧
    levelTraversal (demo [4, 1, 11, 2, 9, 6, 3]) 0 = [1, 2, 3, 4, 6, 9, 11] :=
  C6_demo_scenario _ (demo_reachable [4, 1, 11, 2, 9, 6, 3])

/-- Claim C7: `level` never decreases across inserts; when an insert changes
it at all, it strictly increases it, namely to the newly drawn level. -/
theorem C7_level_monotone :
    ∀ sl vs, Reachable sl vs → ∀ (v : Int) (s : Nat → Bool) (sl' : SkipList),
      sl.insert v s = some sl' →
      sl.level ≤ sl'.level ∧
      (sl'.level = sl.level ∨ (sl.level < sl'.level ∧ sl'.level = random_level s)) := by
  intro sl vs hr v s sl' hins
  obtain ⟨L, g⟩ := reachable_good hr
  unfold SkipList.insert at hins
  by_cases hv : v ∈ (L 0).map (valAt sl.heap)
  · rw [insertWith_dup g hv] at hins
    cases hins
    exact ⟨Nat.le_refl _, Or.inl rfl⟩
  · rw [insertWith_new g hv (random_level_lt s)] at hins
    cases hins
    have hlvl : (splicedState sl L v (random_level s)).level =
        (if sl.level < random_level s then random_level s else sl.level) := rfl
    by_cases hlt : sl.level < random_level s
    · rw [hlvl, if_pos hlt]
      exact ⟨Nat.le_of_lt hlt, Or.inr ⟨hlt, rfl⟩⟩
    · rw [hlvl, if_neg hlt]
      exact ⟨Nat.le_refl _, Or.inl rfl⟩

/-- Witness for C7 at a concrete insert. -/
theorem C7_witness :
    SkipList.new.level ≤ (demo [3]).level ∧
    ((demo [3]).level = SkipList.new.level ∨
      (SkipList.new.level < (demo [3]).level ∧ (demo [3]).level = random_level sFalse)) :=
  C7_level_monotone SkipList.new [] Reachable.base 3 sFalse (demo [3]) (by decide)

/-- Counterexample to claim C8 as stated: with drawn level 0 the freshly
allocated node holds `MAX_LEVEL = 16` forward slots, not `0 + 1 = 1`;
`Node::new` ignores its level argument. -/
theorem C8_counterexample :
    random_level sFalse = 0 ∧
    (SkipList.new.insert 5 sFalse).isSome = true ∧
    (nodeAt ((SkipList.new.insert 5 sFalse).getD SkipList.new).heap 1).next.length = 16 ∧
    (nodeAt ((SkipList.new.insert 5 sFalse).getD SkipList.new).heap 1).next.length ≠
      random_level sFalse + 1 := by decide

/-- Claim C8 amended: `insert` passes `new_level + 1` to `Node::new`, but the
node is always allocated with `MAX_LEVEL` forward slots regardless of the
drawn level; every node of every reachable state has exactly `MAX_LEVEL`
slots. -/
theorem C8_amended :
    ∀ sl vs, Reachable sl vs → ∀ nd ∈ sl.heap, nd.next.length = MAX_LEVEL := by
  intro sl vs hr
  obtain ⟨L, g⟩ := reachable_good hr
  exact g.wf

/-- Witness for the amended C8 at a concrete node. -/
theorem C8_amended_witness : (nodeAt (demo [3]).heap 1).next.length = MAX_LEVEL :=
  C8_amended _ _ (demo_reachable [3]) (nodeAt (demo [3]).heap 1) (by decide)

/-- Counterexample to claim C9 as stated: the head's dummy value is `-1`, a
perfectly valid `i32` payload; the caller may insert `-1`, which succeeds and
creates a real node carrying the same value as the sentinel's dummy. -/
theorem C9_counterexample :
    valAt SkipList.new.heap 0 = -1 ∧
    (SkipList.new.insert (-1) sFalse).isSome = true ∧
    valAt ((SkipList.new.insert (-1) sFalse).getD SkipList.new).heap 1 = -1 ∧
    ((SkipList.new.insert (-1) sFalse).getD SkipList.new).search (-1) = some true := by
  decide

/-- Claim C9 amended: the head sentinel (arena index 0), created once at
construction, keeps the dummy value `-1` forever (it is never overwritten by
an insert, though `-1` itself is insertable as a separate real node), the
head pointer always designates it, and it never occurs on any forward chain
(it is the permanent traversal root at every level, level 0 included). -/
theorem C9_amended :
    ∀ sl vs, Reachable sl vs →
      sl.head = some 0 ∧ 0 < sl.heap.length ∧ valAt sl.heap 0 = -1 ∧
      ∀ i < MAX_LEVEL, 0 ∉ levelPtrs sl i := by
  intro sl vs hr
  obtain ⟨L, g⟩ := reachable_good hr
  refine ⟨g.head_eq, g.head_pos, g.head_val, ?_⟩
  intro i hi
  rw [levelPtrs_eq g hi]
  exact g.no_head i hi

/-- Witness for the amended C9 at a concrete state. -/
theorem C9_amended_witness :
    (demo [3]).head = some 0 ∧ valAt (demo [3]).heap 0 = -1 ∧
    0 ∉ levelPtrs (demo [3]) 0 :=
  ⟨(C9_amended _ _ (demo_reachable [3])).1,
    (C9_amended _ _ (demo_reachable [3])).2.2.1,
    (C9_amended _ _ (demo_reachable [3])).2.2.2 0 (by decide)⟩

/-- Claim C10: on every reachable state, no unwrap/panic branch of `insert`
or `search` is reachable and every loop terminates: the `Option`-monadic
model (where every panic, invalid dereference, out-of-bounds index or fuel
exhaustion yields `none`) always returns `some`. -/
theorem C10_no_panic :
    ∀ sl vs, Reachable sl vs →
      (∀ (v : Int) (s : Nat → Bool), (sl.insert v s).isSome = true) ∧
      (∀ v : Int, (sl.search v).isSome = true) := by
  intro sl vs hr
  obtain ⟨L, g⟩ := reachable_good hr
  constructor
  · intro v s
    obtain ⟨sl', hins⟩ := insert_total g v s
    rw [hins]
    rfl
  · intro v
    rw [search_spec g v]
    rfl

/-- Witness for C10 at a concrete state. -/
theorem C10_witness :
    (SkipList.new.insert 0 sFalse).isSome = true ∧
    (SkipList.new.search 0).isSome = true :=
  ⟨(C10_no_panic _ _ Reachable.base).1 0 sFalse,
    (C10_no_panic _ _ Reachable.base).2 0⟩

end SkipListProof
